import Mathlib

/-!
# Wave-function-collapse engine: a shallow embedding of `src/src/main.rs`

This file embeds the constraint-propagation core of the
`wavefunctioncollapse` program in Lean 4 and settles a fixed list of claims
about it.

The embedded state mirrors `struct WaveFunction` of `src/src/main.rs`:

* `grid[y][x].states : HashSet<usize>` becomes `grid : ℕ × ℕ → Finset ℕ`
  (a total function; construction puts `∅` outside the `h × w` rectangle);
* `basestates : Vec<State>` is kept as its two engine-relevant components,
  the tile count `numStates` and the projection table
  `proj : tile-id → direction → Finset ℕ`
  (`basestates[id].projections[dir].states`); glyphs and colors are
  rendering data the engine never reads;
* `groups : Vec<HashSet<Point>>` becomes `groups : ℕ → Finset (ℕ × ℕ)`
  (the vector has length `numStates + 1`; indices beyond it are never used
  by the code, and in the model they simply hold junk buckets);
* `term.h`, `term.w`, `top`, `rowcount` and `cursor` are kept as data;
* the presentation-only fields `info` and `lastColor`, and all printing
  (`plotGlyph`, `print`, `printTop`, `Debug`/`Display`), are omitted: they
  read engine state but never influence it.

`HashSet` iteration order is unspecified in Rust; every place the source
takes "the next element" of a set (`SuperState::state`,
`SuperState::collapse`, the bucket element taken by `getLowestEntropy`) is
modelled as taking the *minimum* element (lexicographic minimum for point
sets).  Functions whose Rust counterparts can panic return `Option`
(`none` = panic).  The recursive propagation pair
`projectdir`/`projectState` is embedded fuel-indexed (`none` = fuel ran
out); the fuel-sufficiency theorem for claim C4 shows a fuel of
`2·h·w·numStates + 2` always suffices, so the fuelled functions and the
Rust recursion agree.
-/

/-- The engine state, mirroring `struct WaveFunction` (src/src/main.rs:156).
Field names follow the source; `h`/`w` are `term.h`/`term.w`. -/
structure WaveFunction where
  h : ℕ
  w : ℕ
  top : ℕ
  numStates : ℕ
  proj : ℕ → ℕ → Finset ℕ
  grid : ℕ × ℕ → Finset ℕ
  rowcount : ℕ → ℕ
  groups : ℕ → Finset (ℕ × ℕ)
  cursor : (ℕ × ℕ) × (ℕ × ℕ)

/-- The minimum element of a finite set of naturals, `none` when empty.
Models `HashSet::iter().next()` (arbitrary order in Rust, fixed to the
minimum here). -/
def minNat (s : Finset ℕ) : Option ℕ :=
  if h : s.Nonempty then some (s.min' h) else none

/-- Lexicographically least point of a finite point set, `none` when empty.
Models taking "the next element" of a `HashSet<Point>`. -/
def pickPt (s : Finset (ℕ × ℕ)) : Option (ℕ × ℕ) :=
  (minNat (s.image Prod.fst)).bind fun y =>
    (minNat ((s.filter (fun p => p.1 = y)).image Prod.snd)).map fun x => (y, x)

/-- `WaveFunction::projection_ss` (src/src/main.rs:215): the set of states
allowed in direction `dir` by any member of `hset` — the union over
`id ∈ hset` of `basestates[id].projections[dir]`. -/
def projection_ss (st : WaveFunction) (hset : Finset ℕ) (dir : ℕ) : Finset ℕ :=
  hset.biUnion (fun id => st.proj id dir)

/-- The four neighbor coordinates used by `projectState`
(src/src/main.rs:254-257): toroidal modulo addressing on both axes,
direction convention 0=up, 1=down, 2=right, 3=left. -/
def nbrd (st : WaveFunction) (p : ℕ × ℕ) (d : ℕ) : ℕ × ℕ :=
  match d with
  | 0 => ((p.1 + st.h - 1) % st.h, p.2)
  | 1 => ((p.1 + 1) % st.h, p.2)
  | 2 => (p.1, (p.2 + 1) % st.w)
  | _ => (p.1, (p.2 + st.w - 1) % st.w)

/-- The mutating tail of `projectdir`'s changed branch
(src/src/main.rs:236-243): install the intersected set `s2` at `t`, bump
`rowcount` when the cell just resolved, and move `t` from the bucket of its
old cardinality to the bucket of its new one (`groups[sscount].remove`,
then `groups[sscountfinal].insert`). -/
def applyWrite (st : WaveFunction) (t : ℕ × ℕ) (s2 : Finset ℕ) : WaveFunction :=
  let c0 := (st.grid t).card
  let c1 := s2.card
  let st1 := {st with grid := fun q => if q = t then s2 else st.grid q}
  let st2 := if c1 = 1 then
      {st1 with rowcount := fun r => if r = t.1 then st1.rowcount r + 1 else st1.rowcount r}
    else st1
  let g1 : ℕ → Finset (ℕ × ℕ) := fun k => if k = c0 then (st2.groups k).erase t else st2.groups k
  {st2 with groups := fun k => if k = c1 then insert t (g1 k) else g1 k}

/-- The non-recursive part of `WaveFunction::projectdir`
(src/src/main.rs:223-249): set the debug cursor, skip targets that are
already collapsed (`sscount < 2`), intersect the target with the projection
of `op`'s candidate set, and if the cardinality changed perform the write
and bucket move.  The boolean says whether the source would now recurse
(`projectState(&p)`, taken exactly when the cardinality changed to a
nonzero value; a drop to 0 returns `Some(())` at once). -/
def projectdirStep (st : WaveFunction) (t op : ℕ × ℕ) (dir : ℕ) : WaveFunction × Bool :=
  let stc := {st with cursor := (t, op)}
  let sscount := (st.grid t).card
  if sscount < 2 then (stc, false)
  else
    let hashset2 := (st.grid t) ∩ projection_ss st (st.grid op) dir
    let sscountfinal := hashset2.card
    if sscount = sscountfinal then (stc, false)
    else (applyWrite stc t hashset2, decide (sscountfinal ≠ 0))

/-- Fuel-indexed mutual recursion `projectdir`/`projectState`
(src/src/main.rs:223-258), packaged as one structurally recursive function
returning both: `.1` is `projectdir`, `.2` is `projectState`.  At fuel 0
both give `none` (the Rust recursion has no fuel; theorem `C4` shows
`2·h·w·numStates + 2` fuel always suffices, so `none` is unreachable from
that bound up).  `projectState` issues the four directional projections in
source order (up, down, right, left), threading the state; the dimensions
`h`, `w` come from `term`, which no operation ever writes. -/
def propag : ℕ → (WaveFunction → ℕ × ℕ → ℕ × ℕ → ℕ → Option WaveFunction)
    × (WaveFunction → ℕ × ℕ → Option WaveFunction)
  | 0 => (fun _ _ _ _ => none, fun _ _ => none)
  | f + 1 =>
    let pd := (propag f).1
    let ps := (propag f).2
    ( fun st t op dir =>
        let r := projectdirStep st t op dir
        if r.2 then ps r.1 t else some r.1,
      fun st p =>
        (pd st (nbrd st p 0) p 0).bind fun s1 =>
        (pd s1 (nbrd st p 1) p 1).bind fun s2 =>
        (pd s2 (nbrd st p 2) p 2).bind fun s3 =>
        pd s3 (nbrd st p 3) p 3 )

/-- `WaveFunction::projectdir` with `fuel` recursion budget. -/
def projectdirF (fuel : ℕ) : WaveFunction → ℕ × ℕ → ℕ × ℕ → ℕ → Option WaveFunction :=
  (propag fuel).1

/-- `WaveFunction::projectState` with `fuel` recursion budget. -/
def projectStateF (fuel : ℕ) : WaveFunction → ℕ × ℕ → Option WaveFunction :=
  (propag fuel).2

/-- `WaveFunction::collapseAt` (src/src/main.rs:259-265): assert the cell is
superposed (`none` models the assertion failure), bump `rowcount`, collapse
the cell to one member (`SuperState::collapse`, the minimum here), and
propagate. -/
def collapseAtF (fuel : ℕ) (st : WaveFunction) (p : ℕ × ℕ) : Option WaveFunction :=
  if 2 ≤ (st.grid p).card then
    match minNat (st.grid p) with
    | none => none
    | some i =>
      projectStateF fuel
        { st with
          rowcount := fun r => if r = p.1 then st.rowcount r + 1 else st.rowcount r
          grid := fun q => if q = p then {i} else st.grid q } p
  else none

/-- `WaveFunction::getLowestEntropy` (src/src/main.rs:266-272): scan the
bucket vector from index 2 upward, take (remove) one point from the first
nonempty bucket, insert it into bucket 1 to reserve it, and return it with
the updated state. -/
def getLowestEntropy (st : WaveFunction) : Option ((ℕ × ℕ) × WaveFunction) :=
  match (List.range' 2 (st.numStates + 1 - 2)).find? (fun k => decide (0 < (st.groups k).card)) with
  | none => none
  | some k =>
    match pickPt (st.groups k) with
    | none => none
    | some p =>
      let g1 : ℕ → Finset (ℕ × ℕ) := fun j => if j = k then (st.groups j).erase p else st.groups j
      some (p, {st with groups := fun j => if j = 1 then insert p (g1 j) else g1 j})

/-- `WaveFunction::collapseMaybe` (src/src/main.rs:273-278): pick the
lowest-entropy cell and collapse it, reporting `true`; report `false` when
no candidate cell remains.  (In the source `collapseAt` returns `Option<()>`
but every path yields `Some`, so the `None => false` arm is dead; here
`none` only models fuel exhaustion or the `collapseAt` assertion.) -/
def collapseMaybeF (fuel : ℕ) (st : WaveFunction) : Option (Bool × WaveFunction) :=
  match getLowestEntropy st with
  | some r => (collapseAtF fuel r.2 r.1).map (fun s => (true, s))
  | none => some (false, st)

/-- The reset loop of `WaveFunction::resetrow` (src/src/main.rs:198-203) for
one column `x` of row `row`: remove the point from bucket 1, insert it into
the full bucket `numStates`, and reset the cell to the full candidate set. -/
def resetRowCell (row : ℕ) (st : WaveFunction) (x : ℕ) : WaveFunction :=
  let p : ℕ × ℕ := (row, x)
  let numStates := st.numStates
  let g1 : ℕ → Finset (ℕ × ℕ) := fun k => if k = 1 then (st.groups k).erase p else st.groups k
  let st1 := {st with groups := fun k => if k = numStates then insert p (g1 k) else g1 k}
  {st1 with grid := fun q => if q = p then Finset.range numStates else st1.grid q}

/-- `WaveFunction::resetrow` up to (and including) `rowcount[row] = 0`
(src/src/main.rs:195-204): move `top` up one row circularly and reset every
cell of the new top row to full superposition. -/
def resetrowPhase1 (st : WaveFunction) : WaveFunction :=
  let top2 := (st.top + st.h - 1) % st.h
  let st1 := {st with top := top2}
  let row := top2
  let st2 := (List.range st1.w).foldl (fun s x => resetRowCell row s x) st1
  {st2 with rowcount := fun r => if r = row then 0 else st2.rowcount r}

/-- `WaveFunction::resetrow` (src/src/main.rs:194-210): the reset loop, then
re-propagation into the recycled row: for each column, project from the
cell one row below the recycled row (`(row+1) % h`) upward (direction 0)
into the recycled row. -/
def resetrowF (fuel : ℕ) (st : WaveFunction) : Option WaveFunction :=
  let st1 := resetrowPhase1 st
  let row := st1.top
  (List.range st1.w).foldlM (fun s x =>
    let row2 := (row + 1) % s.h
    let p : ℕ × ℕ := (row2, x)
    projectdirF fuel s ((p.1 + s.h - 1) % s.h, x) p 0) st1

/-- `WaveFunction::new` (src/src/main.rs:169-193) with the terminal size and
tile set as parameters: every in-grid cell holds the full candidate set
`{0, …, numStates−1}` and every in-grid coordinate sits in the top bucket
`groups[numStates]`. -/
def WaveFunction.new (h w numStates : ℕ) (proj : ℕ → ℕ → Finset ℕ) : WaveFunction :=
  { h := h
    w := w
    top := 0
    numStates := numStates
    proj := proj
    grid := fun q => if q.1 < h ∧ q.2 < w then Finset.range numStates else ∅
    rowcount := fun _ => 0
    groups := fun k => if k = numStates then (Finset.range h) ×ˢ (Finset.range w) else ∅
    cursor := ((0, 0), (0, 0)) }

/-- `WaveFunction::stateAt` (src/src/main.rs:279-281), i.e.
`SuperState::state` (src/src/main.rs:139-141): the "next" (here: minimum)
element of the cell's candidate set; the source `expect`-panics on an empty
set, modelled by `none`. -/
def stateAtF (st : WaveFunction) (p : ℕ × ℕ) : Option ℕ :=
  minNat (st.grid p)

/-- Sum of all in-grid candidate-set cardinalities; the termination measure
of the propagation recursion. -/
def totalCard (st : WaveFunction) : ℕ :=
  ((Finset.range st.h) ×ˢ (Finset.range st.w)).sum (fun q => (st.grid q).card)

/-- All candidate sets draw from the tile catalog `{0, …, numStates−1}`. -/
def wellFormed (st : WaveFunction) : Prop :=
  ∀ q : ℕ × ℕ, st.grid q ⊆ Finset.range st.numStates

/-- Bucket consistency: positive dimensions, every in-grid coordinate is in
bucket `k` exactly when its candidate set has cardinality `k` (hence in
exactly one bucket), and buckets hold only in-grid coordinates. -/
def bucketInv (st : WaveFunction) : Prop :=
  0 < st.h ∧ 0 < st.w ∧
  (∀ y x, y < st.h → x < st.w →
    ∀ k, ((y, x) ∈ st.groups k ↔ k = ((st.grid (y, x)).card))) ∧
  (∀ k p, p ∈ st.groups k → p.1 < st.h ∧ p.2 < st.w)

/-- The fields never written by any engine operation (the terminal size,
the tile catalog and — outside `resetrow` — the scroll pointer `top`). -/
def sameFrame (st st' : WaveFunction) : Prop :=
  st'.h = st.h ∧ st'.w = st.w ∧ st'.numStates = st.numStates ∧
  st'.proj = st.proj ∧ st'.top = st.top

/-- What every completed propagation call guarantees: the frame is intact,
candidate sets only shrink, and cells that were already collapsed or
contradicted (`card < 2`) keep their exact set. -/
def basicConcl (st st' : WaveFunction) : Prop :=
  sameFrame st st' ∧ (∀ q, st'.grid q ⊆ st.grid q) ∧
  (∀ q, (st.grid q).card < 2 → st'.grid q = st.grid q)

/-- Local stability of the directed edge `u → nbrd u e`: the neighbor is
collapsed/contradicted, or every candidate it retains is allowed by `u`'s
current candidate set in direction `e`.  A repeated `projectdir` along a
stable edge changes nothing. -/
def edgeOK (st : WaveFunction) (u : ℕ × ℕ) (e : ℕ) : Prop :=
  (st.grid (nbrd st u e)).card ≤ 1 ∨
  st.grid (nbrd st u e) ⊆ projection_ss st (st.grid u) e

/-- Two states that agree everywhere except possibly on the candidate sets
of row `r`, whose cells are collapsed or contradicted (`card < 2`) on both
sides.  Propagation that never uses a row-`r` cell as source preserves this
relation — the formal sense in which resolved rows exert no influence. -/
def simExc (r : ℕ) (sa sb : WaveFunction) : Prop :=
  sa.h = sb.h ∧ sa.w = sb.w ∧ sa.numStates = sb.numStates ∧
  sa.proj = sb.proj ∧ sa.top = sb.top ∧
  (∀ q : ℕ × ℕ, q.1 ≠ r → sa.grid q = sb.grid q) ∧
  (∀ q : ℕ × ℕ, q.1 = r → (sa.grid q).card < 2 ∧ (sb.grid q).card < 2)

/-- The row a freshly recycled top row sees "above" itself through the
vertical torus: one row up (mod `h`) from the post-`resetrow` top row. -/
def wrapRow (st : WaveFunction) : ℕ :=
  ((st.top + st.h - 1) % st.h + st.h - 1) % st.h

/-! ## Concrete states used by counterexamples and witnesses -/

/-- Tile catalog for C1: tile 0 permits nothing in any direction, tile 1
permits everything. -/
def pjC1 : ℕ → ℕ → Finset ℕ := fun i _ => if i = 0 then ∅ else {0, 1}

/-- Tile catalog whose projections are all-permissive (2 tiles). -/
def pjFull2 : ℕ → ℕ → Finset ℕ := fun _ _ => {0, 1}

/-- Tile catalog whose projections are all-permissive (3 tiles). -/
def pjFull3 : ℕ → ℕ → Finset ℕ := fun _ _ => {0, 1, 2}

/-- Tile catalog for C2: tile 0 projects only tile 0 upward. -/
def pjC2 : ℕ → ℕ → Finset ℕ := fun i d => if i = 0 ∧ d = 0 then {0} else {0, 1}

/-- C2 counterexample state: a 2×1 grid, the cell `(0,0)` resolved to
tile 0 and its up-neighbor `(1,0)` resolved to tile 1 (which tile 0 does
not permit above itself). -/
def ceC2 : WaveFunction :=
  { h := 2, w := 1, top := 0, numStates := 2, proj := pjC2
    grid := fun q => if q = (0, 0) then {0} else if q = (1, 0) then {1} else ∅
    rowcount := fun _ => 0
    groups := fun k => if k = 1 then {(0, 0), (1, 0)} else ∅
    cursor := ((0, 0), (0, 0)) }

/-- C3 counterexample state: a 2×1 grid over 3 tiles, cell `(0,0)` resolved
and cell `(1,0)` holding 2 of the 3 candidates — a consistent,
non-contradicted state in which the to-be-recycled row's cell has a
cardinality that is neither 1 nor the tile count. -/
def ceC3 : WaveFunction :=
  { h := 2, w := 1, top := 0, numStates := 3, proj := pjFull3
    grid := fun q => if q = (0, 0) then {0} else if q = (1, 0) then {0, 1} else ∅
    rowcount := fun _ => 0
    groups := fun k => if k = 1 then {(0, 0)} else if k = 2 then {(1, 0)} else ∅
    cursor := ((0, 0), (0, 0)) }

/-- Tile catalog for C5: both tiles permit everything vertically and
nothing horizontally. -/
def pjC5 : ℕ → ℕ → Finset ℕ := fun _ d => if d = 0 ∨ d = 1 then {0, 1} else ∅

/-- C5 counterexample state: a 3×1 grid, every cell fully superposed.
Propagating from `(0,0)` drives `(0,0)` itself to the empty set through the
width-1 horizontal self-loop, after which a second propagation from `(0,0)`
still empties its vertical neighbors. -/
def ceC5 : WaveFunction :=
  { h := 3, w := 1, top := 0, numStates := 2, proj := pjC5
    grid := fun q => if q = (0, 0) ∨ q = (1, 0) ∨ q = (2, 0) then {0, 1} else ∅
    rowcount := fun _ => 0
    groups := fun k => if k = 2 then {(0, 0), (1, 0), (2, 0)} else ∅
    cursor := ((0, 0), (0, 0)) }

/-- Tile catalog for C6: tile 0 permits only tile 0 above itself;
everything else is permissive. -/
def pjC6 : ℕ → ℕ → Finset ℕ := fun i d => if i = 0 ∧ d = 0 then {0} else {0, 1}

/-- C6 counterexample state: a fully resolved 2×1 grid (both cells tile 0)
over 2 tiles. -/
def ceC6 : WaveFunction :=
  { h := 2, w := 1, top := 0, numStates := 2, proj := pjC6
    grid := fun q => if q = (0, 0) ∨ q = (1, 0) then {0} else ∅
    rowcount := fun _ => 0
    groups := fun k => if k = 1 then {(0, 0), (1, 0)} else ∅
    cursor := ((0, 0), (0, 0)) }

/-- Tile catalog for C7: tile 0 permits only tile 0 below itself;
everything else is permissive. -/
def pjC7 : ℕ → ℕ → Finset ℕ := fun i d => if i = 0 ∧ d = 1 then {0} else {0, 1}

/-- C7 counterexample state: `top = 0`, so the torus-wrapped row above the
top row is row 2; rows 1 and 2 are resolved to tile 0 while the top-row
cell `(0,0)` is superposed. -/
def ceC7 : WaveFunction :=
  { h := 3, w := 1, top := 0, numStates := 2, proj := pjC7
    grid := fun q => if q = (0, 0) then {0, 1} else
      if q = (1, 0) ∨ q = (2, 0) then {0} else ∅
    rowcount := fun _ => 0
    groups := fun k => if k = 1 then {(1, 0), (2, 0)} else if k = 2 then {(0, 0)} else ∅
    cursor := ((0, 0), (0, 0)) }

/-- C8 counterexample state: a 1×1 grid whose only cell is contradicted
(empty candidate set). -/
def ceC8 : WaveFunction :=
  { h := 1, w := 1, top := 0, numStates := 2, proj := pjFull2
    grid := fun _ => ∅
    rowcount := fun _ => 0
    groups := fun k => if k = 0 then {(0, 0)} else ∅
    cursor := ((0, 0), (0, 0)) }

/-- A 3×1 fully resolved state (all cells tile 0) used by the C7 witness. -/
def wsC7 : WaveFunction :=
  { h := 3, w := 1, top := 0, numStates := 2, proj := pjFull2
    grid := fun q => if q = (0, 0) ∨ q = (1, 0) ∨ q = (2, 0) then {0} else ∅
    rowcount := fun _ => 0
    groups := fun k => if k = 1 then {(0, 0), (1, 0), (2, 0)} else ∅
    cursor := ((0, 0), (0, 0)) }

/-- The C7 witness companion of `wsC7`: identical except that the cell of
the wrapped row (`wrapRow wsC7 = 1`) is resolved to tile 1 instead of
tile 0 — a different (still resolved) content for the row about to be
discarded. -/
def wsC7b : WaveFunction :=
  { h := 3, w := 1, top := 0, numStates := 2, proj := pjFull2
    grid := fun q => if q = (0, 0) ∨ q = (2, 0) then {0} else
      if q = (1, 0) then {1} else ∅
    rowcount := fun _ => 0
    groups := fun k => if k = 1 then {(0, 0), (1, 0), (2, 0)} else ∅
    cursor := ((0, 0), (0, 0)) }

/-! ## Unfolding and single-step lemmas -/

theorem projectdirF_zero (st : WaveFunction) (t op : ℕ × ℕ) (d : ℕ) :
    projectdirF 0 st t op d = none := rfl

theorem projectStateF_zero (st : WaveFunction) (p : ℕ × ℕ) :
    projectStateF 0 st p = none := rfl

theorem projectdirF_succ (f : ℕ) (st : WaveFunction) (t op : ℕ × ℕ) (d : ℕ) :
    projectdirF (f + 1) st t op d =
      (if (projectdirStep st t op d).2 then projectStateF f (projectdirStep st t op d).1 t
       else some (projectdirStep st t op d).1) := rfl

theorem projectStateF_succ (f : ℕ) (st : WaveFunction) (p : ℕ × ℕ) :
    projectStateF (f + 1) st p =
      (projectdirF f st (nbrd st p 0) p 0).bind fun s1 =>
      (projectdirF f s1 (nbrd st p 1) p 1).bind fun s2 =>
      (projectdirF f s2 (nbrd st p 2) p 2).bind fun s3 =>
      projectdirF f s3 (nbrd st p 3) p 3 := rfl

theorem applyWrite_h (st : WaveFunction) (t : ℕ × ℕ) (s2 : Finset ℕ) :
    (applyWrite st t s2).h = st.h := by
  unfold applyWrite; dsimp only; split <;> rfl

theorem applyWrite_w (st : WaveFunction) (t : ℕ × ℕ) (s2 : Finset ℕ) :
    (applyWrite st t s2).w = st.w := by
  unfold applyWrite; dsimp only; split <;> rfl

theorem applyWrite_numStates (st : WaveFunction) (t : ℕ × ℕ) (s2 : Finset ℕ) :
    (applyWrite st t s2).numStates = st.numStates := by
  unfold applyWrite; dsimp only; split <;> rfl

theorem applyWrite_proj (st : WaveFunction) (t : ℕ × ℕ) (s2 : Finset ℕ) :
    (applyWrite st t s2).proj = st.proj := by
  unfold applyWrite; dsimp only; split <;> rfl

theorem applyWrite_top (st : WaveFunction) (t : ℕ × ℕ) (s2 : Finset ℕ) :
    (applyWrite st t s2).top = st.top := by
  unfold applyWrite; dsimp only; split <;> rfl

theorem applyWrite_grid (st : WaveFunction) (t : ℕ × ℕ) (s2 : Finset ℕ) :
    (applyWrite st t s2).grid = fun q => if q = t then s2 else st.grid q := by
  unfold applyWrite; dsimp only; split <;> rfl

theorem applyWrite_groups (st : WaveFunction) (t : ℕ × ℕ) (s2 : Finset ℕ) :
    (applyWrite st t s2).groups = fun k =>
      if k = s2.card then
        insert t (if k = (st.grid t).card then (st.groups k).erase t else st.groups k)
      else (if k = (st.grid t).card then (st.groups k).erase t else st.groups k) := by
  unfold applyWrite; dsimp only; split <;> rfl

theorem projectdirStep_skip (st : WaveFunction) (t op : ℕ × ℕ) (d : ℕ)
    (h : (st.grid t).card < 2) :
    projectdirStep st t op d = ({st with cursor := (t, op)}, false) := by
  unfold projectdirStep
  dsimp only
  rw [if_pos h]

theorem projectdirStep_nochange (st : WaveFunction) (t op : ℕ × ℕ) (d : ℕ)
    (h2 : 2 ≤ (st.grid t).card)
    (he : (st.grid t).card = ((st.grid t) ∩ projection_ss st (st.grid op) d).card) :
    projectdirStep st t op d = ({st with cursor := (t, op)}, false) := by
  unfold projectdirStep
  dsimp only
  rw [if_neg (by omega), if_pos he]

theorem projectdirStep_change (st : WaveFunction) (t op : ℕ × ℕ) (d : ℕ)
    (h2 : 2 ≤ (st.grid t).card)
    (he : (st.grid t).card ≠ ((st.grid t) ∩ projection_ss st (st.grid op) d).card) :
    projectdirStep st t op d =
      (applyWrite {st with cursor := (t, op)} t
        ((st.grid t) ∩ projection_ss st (st.grid op) d),
       decide (((st.grid t) ∩ projection_ss st (st.grid op) d).card ≠ 0)) := by
  unfold projectdirStep
  dsimp only
  rw [if_neg (by omega), if_neg he]

theorem basicConcl_refl (st : WaveFunction) : basicConcl st st :=
  ⟨⟨rfl, rfl, rfl, rfl, rfl⟩, fun _ => Finset.Subset.refl _, fun _ _ => rfl⟩

theorem basicConcl_cursor (st : WaveFunction) (c : (ℕ × ℕ) × (ℕ × ℕ)) :
    basicConcl st {st with cursor := c} :=
  ⟨⟨rfl, rfl, rfl, rfl, rfl⟩, fun _ => Finset.Subset.refl _, fun _ _ => rfl⟩

theorem basicConcl_trans {s1 s2 s3 : WaveFunction}
    (a : basicConcl s1 s2) (b : basicConcl s2 s3) : basicConcl s1 s3 := by
  obtain ⟨⟨ah, aw, an, ap, at'⟩, ag, as⟩ := a
  obtain ⟨⟨bh, bw, bn, bp, bt⟩, bg, bs⟩ := b
  refine ⟨⟨bh.trans ah, bw.trans aw, bn.trans an, bp.trans ap, bt.trans at'⟩,
    fun q => (bg q).trans (ag q), fun q hq => ?_⟩
  have h1 := as q hq
  have h2 : (s2.grid q).card < 2 := by rw [h1]; exact hq
  rw [bs q h2, h1]

theorem projectdirStep_basic (st : WaveFunction) (t op : ℕ × ℕ) (d : ℕ) :
    basicConcl st (projectdirStep st t op d).1 := by
  by_cases h1 : (st.grid t).card < 2
  · rw [projectdirStep_skip st t op d h1]
    exact basicConcl_cursor st _
  · have h2 : 2 ≤ (st.grid t).card := by omega
    by_cases he : (st.grid t).card = ((st.grid t) ∩ projection_ss st (st.grid op) d).card
    · rw [projectdirStep_nochange st t op d h2 he]
      exact basicConcl_cursor st _
    · rw [projectdirStep_change st t op d h2 he]
      dsimp only
      constructor
      · exact ⟨applyWrite_h _ _ _, applyWrite_w _ _ _, applyWrite_numStates _ _ _,
          applyWrite_proj _ _ _, applyWrite_top _ _ _⟩
      constructor
      · intro q
        rw [applyWrite_grid]
        dsimp only
        split
        · next hq => subst hq; exact Finset.inter_subset_left
        · exact Finset.Subset.refl _
      · intro q hq
        rw [applyWrite_grid]
        dsimp only
        rw [if_neg]
        intro hqt
        subst hqt
        exact absurd hq (by omega)

theorem propag_basic : ∀ f : ℕ,
    (∀ st t op d st', projectdirF f st t op d = some st' → basicConcl st st') ∧
    (∀ st p st', projectStateF f st p = some st' → basicConcl st st') := by
  intro f
  induction f with
  | zero =>
    constructor
    · intro st t op d st' h; rw [projectdirF_zero] at h; exact absurd h (by simp)
    · intro st p st' h; rw [projectStateF_zero] at h; exact absurd h (by simp)
  | succ f ih =>
    constructor
    · intro st t op d st' h
      rw [projectdirF_succ] at h
      by_cases hb : (projectdirStep st t op d).2
      · rw [if_pos hb] at h
        exact basicConcl_trans (projectdirStep_basic st t op d) (ih.2 _ _ _ h)
      · rw [if_neg hb] at h
        injection h with h
        rw [← h]
        exact projectdirStep_basic st t op d
    · intro st p st' h
      rw [projectStateF_succ] at h
      cases h1 : projectdirF f st (nbrd st p 0) p 0 with
      | none => rw [h1] at h; simp at h
      | some s1 =>
        rw [h1] at h
        simp only [Option.some_bind] at h
        cases h2 : projectdirF f s1 (nbrd st p 1) p 1 with
        | none => rw [h2] at h; simp at h
        | some s2 =>
          rw [h2] at h
          simp only [Option.some_bind] at h
          cases h3 : projectdirF f s2 (nbrd st p 2) p 2 with
          | none => rw [h3] at h; simp at h
          | some s3 =>
            rw [h3] at h
            simp only [Option.some_bind] at h
            exact basicConcl_trans (ih.1 _ _ _ _ _ h1)
              (basicConcl_trans (ih.1 _ _ _ _ _ h2)
                (basicConcl_trans (ih.1 _ _ _ _ _ h3) (ih.1 _ _ _ _ _ h)))

/-! ## Termination measure -/

theorem totalCard_cursor (st : WaveFunction) (c : (ℕ × ℕ) × (ℕ × ℕ)) :
    totalCard {st with cursor := c} = totalCard st := rfl

theorem totalCard_mono {st st' : WaveFunction} (h : basicConcl st st') :
    totalCard st' ≤ totalCard st := by
  obtain ⟨⟨hh, hw, -, -, -⟩, hg, -⟩ := h
  unfold totalCard
  rw [hh, hw]
  exact Finset.sum_le_sum (fun q _ => Finset.card_le_card (hg q))

theorem totalCard_applyWrite_lt (st : WaveFunction) (t : ℕ × ℕ) (s2 : Finset ℕ)
    (ht1 : t.1 < st.h) (ht2 : t.2 < st.w) (hlt : s2.card < (st.grid t).card) :
    totalCard (applyWrite st t s2) < totalCard st := by
  unfold totalCard
  rw [applyWrite_h, applyWrite_w, applyWrite_grid]
  have htm : t ∈ (Finset.range st.h) ×ˢ (Finset.range st.w) := by
    rw [Finset.mem_product, Finset.mem_range, Finset.mem_range]
    exact ⟨ht1, ht2⟩
  refine Finset.sum_lt_sum (fun q _ => ?_) ⟨t, htm, ?_⟩
  · dsimp only
    split
    · next hq => subst hq; exact hlt.le
    · exact le_refl _
  · dsimp only
    rw [if_pos rfl]
    exact hlt

theorem projectdirStep_true (st : WaveFunction) (t op : ℕ × ℕ) (d : ℕ)
    (hb : (projectdirStep st t op d).2 = true) :
    2 ≤ (st.grid t).card ∧
    0 < ((projectdirStep st t op d).1.grid t).card ∧
    ((projectdirStep st t op d).1.grid t).card < (st.grid t).card ∧
    (projectdirStep st t op d).1 =
      applyWrite {st with cursor := (t, op)} t
        ((st.grid t) ∩ projection_ss st (st.grid op) d) := by
  by_cases h1 : (st.grid t).card < 2
  · rw [projectdirStep_skip st t op d h1] at hb
    exact absurd hb (by simp)
  · have h2 : 2 ≤ (st.grid t).card := by omega
    by_cases he : (st.grid t).card = ((st.grid t) ∩ projection_ss st (st.grid op) d).card
    · rw [projectdirStep_nochange st t op d h2 he] at hb
      exact absurd hb (by simp)
    · have hne : ((st.grid t) ∩ projection_ss st (st.grid op) d).card ≠ 0 := by
        have := projectdirStep_change st t op d h2 he
        rw [this] at hb
        simpa using hb
      rw [projectdirStep_change st t op d h2 he]
      dsimp only
      rw [applyWrite_grid]
      dsimp only
      rw [if_pos rfl]
      have hsub : ((st.grid t) ∩ projection_ss st (st.grid op) d).card ≤ (st.grid t).card :=
        Finset.card_le_card Finset.inter_subset_left
      exact ⟨h2, by omega, by omega, rfl⟩

theorem totalCard_step_true_lt (st : WaveFunction) (t op : ℕ × ℕ) (d : ℕ)
    (ht1 : t.1 < st.h) (ht2 : t.2 < st.w) (hb : (projectdirStep st t op d).2 = true) :
    totalCard (projectdirStep st t op d).1 < totalCard st := by
  obtain ⟨-, -, hlt, heq⟩ := projectdirStep_true st t op d hb
  rw [heq] at hlt ⊢
  have h1 : ({st with cursor := (t, op)} : WaveFunction).grid t = st.grid t := rfl
  rw [applyWrite_grid] at hlt
  dsimp only at hlt
  rw [if_pos rfl] at hlt
  calc totalCard (applyWrite {st with cursor := (t, op)} t
        ((st.grid t) ∩ projection_ss st (st.grid op) d))
      < totalCard {st with cursor := (t, op)} :=
        totalCard_applyWrite_lt _ t _ ht1 ht2 hlt
    _ = totalCard st := totalCard_cursor st _

/-- Fuel sufficiency: with fuel at least `2·totalCard + 1` (projectdir) or
`2·totalCard + 2` (projectState), the fuelled recursion never runs out —
the recursion the Rust source performs without fuel is finite, each
recursive call being paid for by a strict drop of some in-grid cell's
cardinality. -/
theorem propag_suffices : ∀ c : ℕ,
    (∀ f st t op d, 0 < st.h → 0 < st.w → t.1 < st.h → t.2 < st.w →
       totalCard st ≤ c → 2 * c + 1 ≤ f → (projectdirF f st t op d).isSome = true) ∧
    (∀ f st (p : ℕ × ℕ), 0 < st.h → 0 < st.w → p.1 < st.h → p.2 < st.w →
       totalCard st ≤ c → 2 * c + 2 ≤ f → (projectStateF f st p).isSome = true) := by
  intro c
  induction c using Nat.strong_induction_on with
  | _ c ih =>
    have hd : ∀ f st t op d, 0 < st.h → 0 < st.w → t.1 < st.h → t.2 < st.w →
        totalCard st ≤ c → 2 * c + 1 ≤ f → (projectdirF f st t op d).isSome = true := by
      intro f st t op d hh hw ht1 ht2 hc hf
      cases f with
      | zero => omega
      | succ f =>
        rw [projectdirF_succ]
        by_cases hb : (projectdirStep st t op d).2
        · rw [if_pos hb]
          have hdec := totalCard_step_true_lt st t op d ht1 ht2 hb
          have hbasic := projectdirStep_basic st t op d
          obtain ⟨⟨bh, bw, -, -, -⟩, -, -⟩ := hbasic
          exact (ih (c - 1) (by omega)).2 f _ t (by rw [bh]; exact hh) (by rw [bw]; exact hw)
            (by rw [bh]; exact ht1) (by rw [bw]; exact ht2) (by omega) (by omega)
        · rw [if_neg hb]
          rfl
    refine ⟨hd, ?_⟩
    intro f st p hh hw hp1 hp2 hc hf
    cases f with
    | zero => omega
    | succ f =>
      rw [projectStateF_succ]
      have hf' : 2 * c + 1 ≤ f := by omega
      have h0 := hd f st (nbrd st p 0) p 0 hh hw (Nat.mod_lt _ hh) hp2 hc hf'
      obtain ⟨s1, h1⟩ := Option.isSome_iff_exists.mp h0
      rw [h1, Option.some_bind]
      have hb1 := (propag_basic f).1 _ _ _ _ _ h1
      obtain ⟨⟨f1h, f1w, -, -, -⟩, -, -⟩ := hb1
      have hc1 : totalCard s1 ≤ c := le_trans (totalCard_mono ((propag_basic f).1 _ _ _ _ _ h1)) hc
      have h0' := hd f s1 (nbrd st p 1) p 1 (by rw [f1h]; exact hh) (by rw [f1w]; exact hw)
        (by show (p.1 + 1) % st.h < s1.h; rw [f1h]; exact Nat.mod_lt _ hh)
        (by show p.2 < s1.w; rw [f1w]; exact hp2) hc1 hf'
      obtain ⟨s2, h2⟩ := Option.isSome_iff_exists.mp h0'
      rw [h2, Option.some_bind]
      have hb2 := (propag_basic f).1 _ _ _ _ _ h2
      obtain ⟨⟨f2h, f2w, -, -, -⟩, -, -⟩ := hb2
      have hc2 : totalCard s2 ≤ c := le_trans (totalCard_mono ((propag_basic f).1 _ _ _ _ _ h2)) hc1
      have h0'' := hd f s2 (nbrd st p 2) p 2 (by rw [f2h, f1h]; exact hh) (by rw [f2w, f1w]; exact hw)
        (by show p.1 < s2.h; rw [f2h, f1h]; exact hp1)
        (by show (p.2 + 1) % st.w < s2.w; rw [f2w, f1w]; exact Nat.mod_lt _ hw) hc2 hf'
      obtain ⟨s3, h3⟩ := Option.isSome_iff_exists.mp h0''
      rw [h3, Option.some_bind]
      have hb3 := (propag_basic f).1 _ _ _ _ _ h3
      obtain ⟨⟨f3h, f3w, -, -, -⟩, -, -⟩ := hb3
      have hc3 : totalCard s3 ≤ c := le_trans (totalCard_mono ((propag_basic f).1 _ _ _ _ _ h3)) hc2
      exact hd f s3 (nbrd st p 3) p 3 (by rw [f3h, f2h, f1h]; exact hh)
        (by rw [f3w, f2w, f1w]; exact hw)
        (by show p.1 < s3.h; rw [f3h, f2h, f1h]; exact hp1)
        (by show (p.2 + st.w - 1) % st.w < s3.w; rw [f3w, f2w, f1w]; exact Nat.mod_lt _ hw)
        hc3 hf'

/-! ## Candidate sets stay inside the tile catalog -/

theorem wellFormed_of_basicConcl {st st' : WaveFunction}
    (hb : basicConcl st st') (h : wellFormed st) : wellFormed st' := by
  obtain ⟨⟨-, -, hn, -, -⟩, hg, -⟩ := hb
  intro q
  rw [hn]
  exact (hg q).trans (h q)

theorem totalCard_le_of_wellFormed (st : WaveFunction) (h : wellFormed st) :
    totalCard st ≤ st.h * st.w * st.numStates := by
  unfold totalCard
  have hb : ∀ q ∈ (Finset.range st.h) ×ˢ (Finset.range st.w),
      (st.grid q).card ≤ st.numStates := by
    intro q _
    calc (st.grid q).card ≤ (Finset.range st.numStates).card := Finset.card_le_card (h q)
      _ = st.numStates := Finset.card_range _
  calc ((Finset.range st.h) ×ˢ (Finset.range st.w)).sum (fun q => (st.grid q).card)
      ≤ ((Finset.range st.h) ×ˢ (Finset.range st.w)).card • st.numStates :=
        Finset.sum_le_card_nsmul _ _ _ hb
    _ = ((Finset.range st.h) ×ˢ (Finset.range st.w)).card * st.numStates := smul_eq_mul _
    _ = st.h * st.w * st.numStates := by
        rw [Finset.card_product, Finset.card_range, Finset.card_range]

/-! ## Bucket-consistency preservation -/

theorem bucketInv_applyWrite (st : WaveFunction) (t : ℕ × ℕ) (s2 : Finset ℕ)
    (ht1 : t.1 < st.h) (ht2 : t.2 < st.w) (hinv : bucketInv st) :
    bucketInv (applyWrite st t s2) := by
  obtain ⟨hh, hw, hA, hB⟩ := hinv
  have hAt := hA t.1 t.2 ht1 ht2
  refine ⟨by rw [applyWrite_h]; exact hh, by rw [applyWrite_w]; exact hw, ?_, ?_⟩
  · intro y x hy hx k
    rw [applyWrite_h] at hy
    rw [applyWrite_w] at hx
    rw [applyWrite_groups, applyWrite_grid]
    dsimp only
    by_cases hq : ((y, x) : ℕ × ℕ) = t
    · rw [hq, if_pos rfl]
      by_cases hk : k = s2.card
      · simp only [if_pos hk, Finset.mem_insert, true_or, true_iff]
        exact hk
      · rw [if_neg hk]
        by_cases hk0 : k = (st.grid t).card
        · simp only [if_pos hk0, Finset.mem_erase, ne_eq, not_true_eq_false, false_and,
            false_iff]
          exact hk
        · rw [if_neg hk0]
          constructor
          · intro hmem
            exact absurd ((hAt k).mp hmem) hk0
          · intro hkk
            exact absurd hkk hk
    · rw [if_neg hq]
      have hstep : ∀ X : Finset (ℕ × ℕ),
          ((y, x) ∈ insert t X ↔ (y, x) ∈ X) := by
        intro X
        simp [Finset.mem_insert, hq]
      have herase : ((y, x) ∈ (st.groups k).erase t ↔ (y, x) ∈ st.groups k) := by
        simp [Finset.mem_erase, hq]
      split_ifs with h1 h2 h2
      · rw [hstep, herase]
        exact hA y x hy hx k
      · rw [hstep]
        exact hA y x hy hx k
      · rw [herase]
        exact hA y x hy hx k
      · exact hA y x hy hx k
  · intro k p hp
    rw [applyWrite_groups] at hp
    dsimp only at hp
    rw [applyWrite_h, applyWrite_w]
    by_cases hpt : p = t
    · subst hpt
      exact ⟨ht1, ht2⟩
    · apply hB k p
      split_ifs at hp with h1 h2 h2
      · rcases Finset.mem_insert.mp hp with h | h
        · exact absurd h hpt
        · exact Finset.mem_of_mem_erase h
      · rcases Finset.mem_insert.mp hp with h | h
        · exact absurd h hpt
        · exact h
      · exact Finset.mem_of_mem_erase hp
      · exact hp

theorem bucketInv_step (st : WaveFunction) (t op : ℕ × ℕ) (d : ℕ)
    (ht1 : t.1 < st.h) (ht2 : t.2 < st.w) (hinv : bucketInv st) :
    bucketInv (projectdirStep st t op d).1 := by
  by_cases h1 : (st.grid t).card < 2
  · rw [projectdirStep_skip st t op d h1]
    exact hinv
  · have h2 : 2 ≤ (st.grid t).card := by omega
    by_cases he : (st.grid t).card = ((st.grid t) ∩ projection_ss st (st.grid op) d).card
    · rw [projectdirStep_nochange st t op d h2 he]
      exact hinv
    · rw [projectdirStep_change st t op d h2 he]
      exact bucketInv_applyWrite _ t _ ht1 ht2 hinv

theorem propag_inv : ∀ f : ℕ,
    (∀ st t op d st', t.1 < st.h → t.2 < st.w → bucketInv st →
       projectdirF f st t op d = some st' → bucketInv st') ∧
    (∀ st (p : ℕ × ℕ) st', p.1 < st.h → p.2 < st.w → bucketInv st →
       projectStateF f st p = some st' → bucketInv st') := by
  intro f
  induction f with
  | zero =>
    constructor
    · intro st t op d st' _ _ _ h; rw [projectdirF_zero] at h; exact absurd h (by simp)
    · intro st p st' _ _ _ h; rw [projectStateF_zero] at h; exact absurd h (by simp)
  | succ f ih =>
    constructor
    · intro st t op d st' ht1 ht2 hinv h
      rw [projectdirF_succ] at h
      have hstep := bucketInv_step st t op d ht1 ht2 hinv
      by_cases hb : (projectdirStep st t op d).2
      · rw [if_pos hb] at h
        obtain ⟨⟨bh, bw, -, -, -⟩, -, -⟩ := projectdirStep_basic st t op d
        exact ih.2 _ t _ (by rw [bh]; exact ht1) (by rw [bw]; exact ht2) hstep h
      · rw [if_neg hb] at h
        injection h with h
        rw [← h]
        exact hstep
    · intro st p st' hp1 hp2 hinv h
      have hh : 0 < st.h := hinv.1
      have hw : 0 < st.w := hinv.2.1
      rw [projectStateF_succ] at h
      cases h1 : projectdirF f st (nbrd st p 0) p 0 with
      | none => rw [h1] at h; simp at h
      | some s1 =>
        rw [h1, Option.some_bind] at h
        obtain ⟨⟨f1h, f1w, -, -, -⟩, -, -⟩ := (propag_basic f).1 _ _ _ _ _ h1
        have hi1 := (ih.1) st (nbrd st p 0) p 0 s1 (Nat.mod_lt _ hh) hp2 hinv h1
        cases h2 : projectdirF f s1 (nbrd st p 1) p 1 with
        | none => rw [h2] at h; simp at h
        | some s2 =>
          rw [h2, Option.some_bind] at h
          obtain ⟨⟨f2h, f2w, -, -, -⟩, -, -⟩ := (propag_basic f).1 _ _ _ _ _ h2
          have hi2 := (ih.1) s1 (nbrd st p 1) p 1 s2
            (by show (p.1 + 1) % st.h < s1.h; rw [f1h]; exact Nat.mod_lt _ hh)
            (by show p.2 < s1.w; rw [f1w]; exact hp2) hi1 h2
          cases h3 : projectdirF f s2 (nbrd st p 2) p 2 with
          | none => rw [h3] at h; simp at h
          | some s3 =>
            rw [h3, Option.some_bind] at h
            obtain ⟨⟨f3h, f3w, -, -, -⟩, -, -⟩ := (propag_basic f).1 _ _ _ _ _ h3
            have hi3 := (ih.1) s2 (nbrd st p 2) p 2 s3
              (by show p.1 < s2.h; rw [f2h, f1h]; exact hp1)
              (by show (p.2 + 1) % st.w < s2.w; rw [f2w, f1w]; exact Nat.mod_lt _ hw) hi2 h3
            exact (ih.1) s3 (nbrd st p 3) p 3 st'
              (by show p.1 < s3.h; rw [f3h, f2h, f1h]; exact hp1)
              (by show (p.2 + st.w - 1) % st.w < s3.w; rw [f3w, f2w, f1w]; exact Nat.mod_lt _ hw)
              hi3 h

/-! ## Picking and collapsing -/

theorem minNat_of_nonempty {s : Finset ℕ} (h : s.Nonempty) : minNat s = some (s.min' h) :=
  dif_pos h

theorem minNat_of_empty {s : Finset ℕ} (h : ¬s.Nonempty) : minNat s = none :=
  dif_neg h

theorem minNat_mem {s : Finset ℕ} {i : ℕ} (h : minNat s = some i) : i ∈ s := by
  unfold minNat at h
  split at h
  · injection h with h
    rw [← h]
    exact Finset.min'_mem _ _
  · exact absurd h (by simp)

theorem pickPt_mem {s : Finset (ℕ × ℕ)} (h : s.Nonempty) :
    ∃ p, pickPt s = some p ∧ p ∈ s := by
  unfold pickPt
  have h1 : (s.image Prod.fst).Nonempty := h.image _
  rw [minNat_of_nonempty h1, Option.some_bind]
  have hymem : (s.image Prod.fst).min' h1 ∈ s.image Prod.fst := Finset.min'_mem _ _
  obtain ⟨a, ha, hay⟩ := Finset.mem_image.mp hymem
  have h2 : ((s.filter (fun p => p.1 = (s.image Prod.fst).min' h1)).image Prod.snd).Nonempty :=
    ⟨a.2, Finset.mem_image.mpr ⟨a, Finset.mem_filter.mpr ⟨ha, hay⟩, rfl⟩⟩
  rw [minNat_of_nonempty h2, Option.map_some']
  have hxmem := Finset.min'_mem _ h2
  obtain ⟨b, hb, hbx⟩ := Finset.mem_image.mp hxmem
  have hbf := Finset.mem_filter.mp hb
  refine ⟨_, rfl, ?_⟩
  have hbeq : b = ((s.image Prod.fst).min' h1,
      ((s.filter (fun p => p.1 = (s.image Prod.fst).min' h1)).image Prod.snd).min' h2) := by
    rw [Prod.ext_iff]
    exact ⟨hbf.2, hbx⟩
  rw [← hbeq]
  exact hbf.1

theorem getLowestEntropy_some {st : WaveFunction} {p : ℕ × ℕ} {st1 : WaveFunction}
    (h : getLowestEntropy st = some (p, st1)) :
    ∃ k, 2 ≤ k ∧ k ≤ st.numStates ∧ p ∈ st.groups k ∧
      st1 = {st with groups := fun j =>
        if j = 1 then insert p (if j = k then (st.groups j).erase p else st.groups j)
        else if j = k then (st.groups j).erase p else st.groups j} := by
  unfold getLowestEntropy at h
  split at h
  · exact absurd h (by simp)
  · next k hfind =>
    have hk := List.mem_range'.mp (List.mem_of_find?_eq_some hfind)
    have hpred : 0 < (st.groups k).card := by
      have := List.find?_some hfind
      simpa using this
    have hne : (st.groups k).Nonempty := Finset.card_pos.mp hpred
    obtain ⟨p0, hpick, hp0⟩ := pickPt_mem hne
    rw [hpick] at h
    dsimp only at h
    injection h with h
    rw [Prod.mk.injEq] at h
    obtain ⟨rfl, rfl⟩ := h
    exact ⟨k, by omega, by omega, hp0, rfl⟩

theorem bucketInv_collapsed (st : WaveFunction) (p : ℕ × ℕ) (k i : ℕ) (rc : ℕ → ℕ)
    (hp1 : p.1 < st.h) (hp2 : p.2 < st.w)
    (hcard : (st.grid p).card = k)
    (hinv : bucketInv st) :
    bucketInv { st with
      rowcount := rc
      grid := fun q => if q = p then {i} else st.grid q
      groups := fun j =>
        if j = 1 then insert p (if j = k then (st.groups j).erase p else st.groups j)
        else if j = k then (st.groups j).erase p else st.groups j } := by
  obtain ⟨hh, hw, hA, hB⟩ := hinv
  refine ⟨hh, hw, ?_, ?_⟩
  · intro y x hy hx j
    replace hy : y < st.h := hy
    replace hx : x < st.w := hx
    show ((y, x) ∈ (if j = 1 then
        insert p (if j = k then (st.groups j).erase p else st.groups j)
        else if j = k then (st.groups j).erase p else st.groups j)) ↔
      j = (if ((y, x) : ℕ × ℕ) = p then ({i} : Finset ℕ) else st.grid (y, x)).card
    by_cases hq : ((y, x) : ℕ × ℕ) = p
    · rw [hq, if_pos rfl, Finset.card_singleton]
      by_cases hj : j = 1
      · subst hj
        simp [Finset.mem_insert]
      · rw [if_neg hj]
        by_cases hjk : j = k
        · subst hjk
          rw [if_pos rfl]
          simp only [Finset.mem_erase, ne_eq, not_true_eq_false, false_and, false_iff]
          omega
        · rw [if_neg hjk]
          constructor
          · intro hmem
            have hjc : j = (st.grid p).card := (hA p.1 p.2 hp1 hp2 j).mp (by
              have : ((p.1, p.2) : ℕ × ℕ) = p := rfl
              rw [this]
              exact hmem)
            rw [hcard] at hjc
            exact absurd hjc hjk
          · intro hj1
            exact absurd hj1 hj
    · have hins : ∀ X : Finset (ℕ × ℕ), ((y, x) ∈ insert p X ↔ (y, x) ∈ X) := by
        intro X; simp [Finset.mem_insert, hq]
      have hera : ∀ j', ((y, x) ∈ (st.groups j').erase p ↔ (y, x) ∈ st.groups j') := by
        intro j'; simp [Finset.mem_erase, hq]
      rw [if_neg hq]
      split_ifs with h1 h2 h3
      · rw [hins, hera]
        exact hA y x hy hx _
      · rw [hins]
        exact hA y x hy hx _
      · rw [hera]
        exact hA y x hy hx _
      · exact hA y x hy hx _
  · intro j q hq
    show q.1 < st.h ∧ q.2 < st.w
    replace hq : q ∈ (if j = 1 then
        insert p (if j = k then (st.groups j).erase p else st.groups j)
        else if j = k then (st.groups j).erase p else st.groups j) := hq
    by_cases hqp : q = p
    · subst hqp; exact ⟨hp1, hp2⟩
    · apply hB j q
      split_ifs at hq with h1 h2 h3
      · rcases Finset.mem_insert.mp hq with h | h
        · exact absurd h hqp
        · exact Finset.mem_of_mem_erase h
      · rcases Finset.mem_insert.mp hq with h | h
        · exact absurd h hqp
        · exact h
      · exact Finset.mem_of_mem_erase hq
      · exact hq

theorem bucketInv_congr {s1 s2 : WaveFunction} (hh : s2.h = s1.h) (hw : s2.w = s1.w)
    (hg : s2.grid = s1.grid) (hgr : s2.groups = s1.groups) :
    bucketInv s1 → bucketInv s2 := by
  unfold bucketInv
  rw [hh, hw, hg, hgr]
  exact id

theorem wellFormed_congr {s1 s2 : WaveFunction} (hn : s2.numStates = s1.numStates)
    (hg : s2.grid = s1.grid) : wellFormed s1 → wellFormed s2 := by
  unfold wellFormed
  rw [hn, hg]
  exact id

theorem collapseAtF_elim {fuel : ℕ} {st : WaveFunction} {p : ℕ × ℕ} {s : WaveFunction}
    (h : collapseAtF fuel st p = some s) :
    ∃ i, 2 ≤ (st.grid p).card ∧ i ∈ st.grid p ∧
      projectStateF fuel
        { st with
          rowcount := fun r => if r = p.1 then st.rowcount r + 1 else st.rowcount r
          grid := fun q => if q = p then {i} else st.grid q } p = some s := by
  unfold collapseAtF at h
  split at h
  · next hc =>
    split at h
    · exact absurd h (by simp)
    · next i hmin =>
      exact ⟨i, hc, minNat_mem hmin, h⟩
  · exact absurd h (by simp)

theorem wellFormed_collapsed (st : WaveFunction) (p : ℕ × ℕ) (i : ℕ) (rc : ℕ → ℕ)
    (G : ℕ → Finset (ℕ × ℕ)) (hwf : wellFormed st) (hi : i ∈ st.grid p) :
    wellFormed
      { st with
        rowcount := rc
        grid := fun q => if q = p then {i} else st.grid q
        groups := G } := by
  intro q
  show (if q = p then ({i} : Finset ℕ) else st.grid q) ⊆ Finset.range st.numStates
  split
  · rw [Finset.singleton_subset_iff]
    exact hwf p hi
  · exact hwf q

theorem collapseAtF_isSome (fuel : ℕ) (st : WaveFunction) (p : ℕ × ℕ)
    (h2 : 2 ≤ (st.grid p).card) (hh : 0 < st.h) (hw : 0 < st.w)
    (hp1 : p.1 < st.h) (hp2 : p.2 < st.w) (hwf : wellFormed st)
    (hfuel : 2 * (st.h * st.w * st.numStates) + 2 ≤ fuel) :
    (collapseAtF fuel st p).isSome = true := by
  unfold collapseAtF
  rw [if_pos h2]
  have hne : (st.grid p).Nonempty := Finset.card_pos.mp (by omega)
  rw [minNat_of_nonempty hne]
  show (projectStateF fuel
    { st with
      rowcount := fun r => if r = p.1 then st.rowcount r + 1 else st.rowcount r
      grid := fun q => if q = p then {(st.grid p).min' hne} else st.grid q } p).isSome = true
  have hwfX := wellFormed_collapsed st p ((st.grid p).min' hne)
    (fun r => if r = p.1 then st.rowcount r + 1 else st.rowcount r) st.groups hwf
    (Finset.min'_mem _ hne)
  refine (propag_suffices (st.h * st.w * st.numStates)).2 fuel _ p hh hw hp1 hp2 ?_ hfuel
  exact totalCard_le_of_wellFormed _ hwfX

theorem getLowestEntropy_fields {st : WaveFunction} {p : ℕ × ℕ} {st1 : WaveFunction}
    (h : getLowestEntropy st = some (p, st1)) :
    ∃ k, 2 ≤ k ∧ k ≤ st.numStates ∧ p ∈ st.groups k ∧
      st1.h = st.h ∧ st1.w = st.w ∧ st1.numStates = st.numStates ∧
      st1.proj = st.proj ∧ st1.grid = st.grid ∧
      st1.groups = (fun j =>
        if j = 1 then insert p (if j = k then (st.groups j).erase p else st.groups j)
        else if j = k then (st.groups j).erase p else st.groups j) := by
  obtain ⟨k, hk2, hkK, hmem, hst1⟩ := getLowestEntropy_some h
  exact ⟨k, hk2, hkK, hmem, by rw [hst1], by rw [hst1], by rw [hst1], by rw [hst1],
    by rw [hst1], by rw [hst1]⟩

theorem collapseMaybeF_inv (fuel : ℕ) (st : WaveFunction) (b : Bool) (st' : WaveFunction)
    (hinv : bucketInv st) (h : collapseMaybeF fuel st = some (b, st')) : bucketInv st' := by
  unfold collapseMaybeF at h
  split at h
  · next r heq =>
    obtain ⟨p, st1⟩ := r
    obtain ⟨k, hk2, hkK, hmem, h1h, h1w, h1n, h1p, h1g, h1gr⟩ := getLowestEntropy_fields heq
    cases hc : collapseAtF fuel st1 p with
    | none => rw [hc] at h; simp at h
    | some s =>
      rw [hc, Option.map_some'] at h
      injection h with h
      rw [Prod.mk.injEq] at h
      obtain ⟨-, rfl⟩ := h
      obtain ⟨i, h2c, hi, hps⟩ := collapseAtF_elim hc
      have hpin := hinv.2.2.2 k p hmem
      have hcard : k = (st.grid p).card := by
        have hmem' : ((p.1, p.2) : ℕ × ℕ) ∈ st.groups k := hmem
        exact (hinv.2.2.1 p.1 p.2 hpin.1 hpin.2 k).mp hmem'
      have hinvX : bucketInv
          { st1 with
            rowcount := fun r => if r = p.1 then st1.rowcount r + 1 else st1.rowcount r
            grid := fun q => if q = p then {i} else st1.grid q } := by
        refine @bucketInv_congr
          { st with
            rowcount := fun r => if r = p.1 then st.rowcount r + 1 else st.rowcount r
            grid := fun q => if q = p then {i} else st.grid q
            groups := fun j =>
              if j = 1 then insert p (if j = k then (st.groups j).erase p else st.groups j)
              else if j = k then (st.groups j).erase p else st.groups j } _ ?_ ?_ ?_ ?_ ?_
        · exact h1h
        · exact h1w
        · show (fun q => if q = p then {i} else st1.grid q) = _
          rw [h1g]
        · exact h1gr
        · exact bucketInv_collapsed st p k i _ hpin.1 hpin.2 hcard.symm hinv
      refine (propag_inv fuel).2 _ p _ ?_ ?_ hinvX hps
      · show p.1 < st1.h
        rw [h1h]; exact hpin.1
      · show p.2 < st1.w
        rw [h1w]; exact hpin.2
  · injection h with h
    rw [Prod.mk.injEq] at h
    rw [← h.2]
    exact hinv

theorem collapseMaybeF_wf (fuel : ℕ) (st : WaveFunction) (b : Bool) (st' : WaveFunction)
    (hwf : wellFormed st) (h : collapseMaybeF fuel st = some (b, st')) : wellFormed st' := by
  unfold collapseMaybeF at h
  split at h
  · next r heq =>
    obtain ⟨p, st1⟩ := r
    obtain ⟨k, hk2, hkK, hmem, h1h, h1w, h1n, h1p, h1g, h1gr⟩ := getLowestEntropy_fields heq
    cases hc : collapseAtF fuel st1 p with
    | none => rw [hc] at h; simp at h
    | some s =>
      rw [hc, Option.map_some'] at h
      injection h with h
      rw [Prod.mk.injEq] at h
      obtain ⟨-, rfl⟩ := h
      obtain ⟨i, h2c, hi, hps⟩ := collapseAtF_elim hc
      refine wellFormed_of_basicConcl ((propag_basic fuel).2 _ _ _ hps) ?_
      refine @wellFormed_congr
        { st with
          rowcount := fun r => if r = p.1 then st.rowcount r + 1 else st.rowcount r
          grid := fun q => if q = p then {i} else st.grid q
          groups := st1.groups } _ ?_ ?_ ?_
      · exact h1n
      · show (fun q => if q = p then {i} else st1.grid q) = _
        rw [h1g]
      · refine wellFormed_collapsed st p i _ _ hwf ?_
        rw [h1g] at hi
        exact hi
  · injection h with h
    rw [Prod.mk.injEq] at h
    rw [← h.2]
    exact hwf

theorem collapseMaybeF_isSome (st : WaveFunction)
    (hinv : bucketInv st) (hwf : wellFormed st) :
    (collapseMaybeF (2 * (st.h * st.w * st.numStates) + 2) st).isSome = true := by
  unfold collapseMaybeF
  split
  · next r heq =>
    obtain ⟨p, st1⟩ := r
    obtain ⟨k, hk2, hkK, hmem, h1h, h1w, h1n, h1p, h1g, h1gr⟩ := getLowestEntropy_fields heq
    have hpin := hinv.2.2.2 k p hmem
    have hcard : k = (st.grid p).card := by
      have hmem' : ((p.1, p.2) : ℕ × ℕ) ∈ st.groups k := hmem
      exact (hinv.2.2.1 p.1 p.2 hpin.1 hpin.2 k).mp hmem'
    have hsome := collapseAtF_isSome (2 * (st.h * st.w * st.numStates) + 2) st1 p
      (by rw [h1g]; omega) (by rw [h1h]; exact hinv.1) (by rw [h1w]; exact hinv.2.1)
      (by rw [h1h]; exact hpin.1) (by rw [h1w]; exact hpin.2)
      (wellFormed_congr h1n h1g hwf) (by rw [h1h, h1w, h1n])
    cases hcc : collapseAtF (2 * (st.h * st.w * st.numStates) + 2) st1 p with
    | none => rw [hcc] at hsome; exact absurd hsome (by simp)
    | some s => rfl
  · rfl

/-! ## Row recycling -/

theorem resetRowCell_fields (row : ℕ) (s : WaveFunction) (x : ℕ) :
    (resetRowCell row s x).h = s.h ∧ (resetRowCell row s x).w = s.w ∧
    (resetRowCell row s x).numStates = s.numStates ∧
    (resetRowCell row s x).proj = s.proj ∧ (resetRowCell row s x).top = s.top ∧
    (resetRowCell row s x).rowcount = s.rowcount ∧
    (resetRowCell row s x).grid =
      (fun q => if q = (row, x) then Finset.range s.numStates else s.grid q) ∧
    (resetRowCell row s x).groups = (fun k =>
      if k = s.numStates then
        insert (row, x) (if k = 1 then (s.groups k).erase (row, x) else s.groups k)
      else if k = 1 then (s.groups k).erase (row, x) else s.groups k) :=
  ⟨rfl, rfl, rfl, rfl, rfl, rfl, rfl, rfl⟩

theorem bucketInv_resetRowCell (row x : ℕ) (s : WaveFunction)
    (hrow : row < s.h) (hx : x < s.w)
    (hc : (s.grid (row, x)).card = 1 ∨ (s.grid (row, x)).card = s.numStates)
    (hinv : bucketInv s) : bucketInv (resetRowCell row s x) := by
  obtain ⟨hh, hw, hA, hB⟩ := hinv
  obtain ⟨fh, fw, fn, fp, ft, fr, fg, fgr⟩ := resetRowCell_fields row s x
  refine ⟨by rw [fh]; exact hh, by rw [fw]; exact hw, ?_, ?_⟩
  · intro y x' hy hx' j
    rw [fh] at hy
    rw [fw] at hx'
    rw [fgr, fg]
    dsimp only
    by_cases hq : ((y, x') : ℕ × ℕ) = (row, x)
    · rw [hq, if_pos rfl, Finset.card_range]
      by_cases hj : j = s.numStates
      · subst hj
        simp [Finset.mem_insert]
      · rw [if_neg hj]
        by_cases hj1 : j = 1
        · subst hj1
          rw [if_pos rfl]
          exact iff_of_false (by simp) hj
        · rw [if_neg hj1]
          constructor
          · intro hmem
            have hjc : j = (s.grid (row, x)).card := by
              have := (hA row x hrow hx j).mp hmem
              exact this
            omega
          · intro hj'
            exact absurd hj' hj
    · have hins : ∀ X : Finset (ℕ × ℕ), ((y, x') ∈ insert (row, x) X ↔ (y, x') ∈ X) := by
        intro X; simp [Finset.mem_insert, hq]
      have hera : ∀ j', ((y, x') ∈ (s.groups j').erase (row, x) ↔ (y, x') ∈ s.groups j') := by
        intro j'; simp [Finset.mem_erase, hq]
      rw [if_neg hq]
      split_ifs with h1 h2 h3
      · rw [hins, hera]
        exact hA y x' hy hx' _
      · rw [hins]
        exact hA y x' hy hx' _
      · rw [hera]
        exact hA y x' hy hx' _
      · exact hA y x' hy hx' _
  · intro j q hq
    rw [fgr] at hq
    dsimp only at hq
    rw [fh, fw]
    by_cases hqp : q = (row, x)
    · subst hqp; exact ⟨hrow, hx⟩
    · apply hB j q
      split_ifs at hq with h1 h2 h3
      · rcases Finset.mem_insert.mp hq with h | h
        · exact absurd h hqp
        · exact Finset.mem_of_mem_erase h
      · rcases Finset.mem_insert.mp hq with h | h
        · exact absurd h hqp
        · exact h
      · exact Finset.mem_of_mem_erase hq
      · exact hq

theorem foldcells_mem_preserved (row x : ℕ) : ∀ (l : List ℕ) (s : WaveFunction),
    x ∉ l → (row, x) ∈ s.groups s.numStates →
    (row, x) ∈ (l.foldl (fun s2 x' => resetRowCell row s2 x') s).groups
      (l.foldl (fun s2 x' => resetRowCell row s2 x') s).numStates := by
  intro l
  induction l with
  | nil => intro s _ h; exact h
  | cons x1 xt ih =>
    intro s hx h
    rw [List.foldl_cons]
    have hx1 : x ≠ x1 := fun hc => hx (by rw [hc]; exact List.mem_cons_self _ _)
    refine ih (resetRowCell row s x1) (fun hm => hx (List.mem_cons_of_mem _ hm)) ?_
    obtain ⟨-, -, gn, -, -, -, -, ggr⟩ := resetRowCell_fields row s x1
    rw [gn, ggr]
    dsimp only
    rw [if_pos rfl]
    apply Finset.mem_insert_of_mem
    split
    · exact Finset.mem_erase.mpr ⟨by simp [hx1], h⟩
    · exact h

theorem foldcells_facts (row : ℕ) : ∀ (l : List ℕ) (s : WaveFunction),
    (l.foldl (fun s2 x => resetRowCell row s2 x) s).h = s.h ∧
    (l.foldl (fun s2 x => resetRowCell row s2 x) s).w = s.w ∧
    (l.foldl (fun s2 x => resetRowCell row s2 x) s).numStates = s.numStates ∧
    (l.foldl (fun s2 x => resetRowCell row s2 x) s).proj = s.proj ∧
    (l.foldl (fun s2 x => resetRowCell row s2 x) s).top = s.top ∧
    (l.foldl (fun s2 x => resetRowCell row s2 x) s).rowcount = s.rowcount ∧
    (∀ q : ℕ × ℕ, (q.1 = row → q.2 ∉ l) →
      (l.foldl (fun s2 x => resetRowCell row s2 x) s).grid q = s.grid q) ∧
    (∀ x ∈ l, (l.foldl (fun s2 x => resetRowCell row s2 x) s).grid (row, x) =
      Finset.range s.numStates) ∧
    (∀ x ∈ l, (row, x) ∈ (l.foldl (fun s2 x => resetRowCell row s2 x) s).groups s.numStates) := by
  intro l
  induction l with
  | nil =>
    intro s
    refine ⟨rfl, rfl, rfl, rfl, rfl, rfl, fun q _ => rfl, ?_, ?_⟩ <;> intro x hx <;> simp at hx
  | cons x0 xs ih =>
    intro s
    rw [List.foldl_cons]
    obtain ⟨fh, fw, fn, fp, ft, fr, fg, fgr⟩ := resetRowCell_fields row s x0
    obtain ⟨ph, pw, pn, pp, pt, pr, pgrid, pfull, pmem⟩ := ih (resetRowCell row s x0)
    refine ⟨ph.trans fh, pw.trans fw, pn.trans fn, pp.trans fp, pt.trans ft, pr.trans fr,
      ?_, ?_, ?_⟩
    · intro q hq
      have hq2 : q.1 = row → q.2 ∉ xs := by
        intro h1 hm
        exact hq h1 (List.mem_cons_of_mem _ hm)
      rw [pgrid q hq2, fg]
      dsimp only
      rw [if_neg]
      intro hqe
      rw [hqe] at hq
      exact hq rfl (List.mem_cons_self _ _)
    · intro x hx
      rw [List.mem_cons] at hx
      rcases hx with hx | hx
      · subst hx
        by_cases hxs : x ∈ xs
        · rw [fn] at pfull
          exact pfull x hxs
        · rw [pgrid (row, x) (fun _ => hxs), fg]
          dsimp only
          rw [if_pos rfl]
      · rw [fn] at pfull
        exact pfull x hx
    · intro x hx
      rw [List.mem_cons] at hx
      rcases hx with hx | hx
      · subst hx
        by_cases hxs : x ∈ xs
        · rw [fn] at pmem
          exact pmem x hxs
        · have hbase : (row, x) ∈ (resetRowCell row s x).groups
              (resetRowCell row s x).numStates := by
            rw [fn, fgr]
            dsimp only
            rw [if_pos rfl]
            exact Finset.mem_insert_self _ _
          have := foldcells_mem_preserved row x xs (resetRowCell row s x) hxs hbase
          rw [pn, fn] at this
          exact this
      · rw [fn] at pmem
        exact pmem x hx

theorem resetrowPhase1_facts (st : WaveFunction) :
    (resetrowPhase1 st).h = st.h ∧ (resetrowPhase1 st).w = st.w ∧
    (resetrowPhase1 st).numStates = st.numStates ∧ (resetrowPhase1 st).proj = st.proj ∧
    (resetrowPhase1 st).top = (st.top + st.h - 1) % st.h ∧
    (∀ q : ℕ × ℕ, (q.1 = (st.top + st.h - 1) % st.h → ¬q.2 < st.w) →
      (resetrowPhase1 st).grid q = st.grid q) ∧
    (∀ x, x < st.w → (resetrowPhase1 st).grid ((st.top + st.h - 1) % st.h, x) =
      Finset.range st.numStates) ∧
    (∀ x, x < st.w → ((st.top + st.h - 1) % st.h, x) ∈
      (resetrowPhase1 st).groups st.numStates) := by
  obtain ⟨gh, gw, gn, gp, gt, gr, ggrid, gfull, gmem⟩ :=
    foldcells_facts ((st.top + st.h - 1) % st.h) (List.range st.w)
      {st with top := (st.top + st.h - 1) % st.h}
  refine ⟨gh, gw, gn, gp, gt, ?_, ?_, ?_⟩
  · intro q hq
    refine ggrid q ?_
    intro h1
    rw [List.mem_range]
    exact hq h1
  · intro x hx
    have := gfull x (by rw [List.mem_range]; exact hx)
    exact this
  · intro x hx
    exact gmem x (by rw [List.mem_range]; exact hx)

theorem bucketInv_foldcells (row : ℕ) : ∀ (l : List ℕ) (s : WaveFunction),
    bucketInv s → row < s.h →
    (∀ x ∈ l, x < s.w ∧
      ((s.grid (row, x)).card = 1 ∨ (s.grid (row, x)).card = s.numStates)) →
    bucketInv (l.foldl (fun s2 x => resetRowCell row s2 x) s) := by
  intro l
  induction l with
  | nil => intro s h _ _; exact h
  | cons x xs ih =>
    intro s hinv hr hl
    rw [List.foldl_cons]
    obtain ⟨hx, hcond⟩ := hl x (List.mem_cons_self _ _)
    have hinv1 := bucketInv_resetRowCell row x s hr hx hcond hinv
    obtain ⟨fh, fw, fn, fp, ft, fr, fg, fgr⟩ := resetRowCell_fields row s x
    refine ih _ hinv1 (by rw [fh]; exact hr) ?_
    intro x' hx'
    obtain ⟨hx'w, hcond'⟩ := hl x' (List.mem_cons_of_mem _ hx')
    refine ⟨by rw [fw]; exact hx'w, ?_⟩
    rw [fn, fg]
    dsimp only
    by_cases hxx : ((row, x') : ℕ × ℕ) = (row, x)
    · rw [if_pos hxx, Finset.card_range]
      right
      rfl
    · rw [if_neg hxx]
      exact hcond'

theorem bucketInv_resetrowPhase1 (st : WaveFunction) (hinv : bucketInv st)
    (hrow : ∀ x, x < st.w →
      (st.grid ((st.top + st.h - 1) % st.h, x)).card = 1 ∨
      (st.grid ((st.top + st.h - 1) % st.h, x)).card = st.numStates) :
    bucketInv (resetrowPhase1 st) := by
  show bucketInv ((List.range
    ({st with top := (st.top + st.h - 1) % st.h} : WaveFunction).w).foldl
    (fun s x => resetRowCell ((st.top + st.h - 1) % st.h) s x)
    {st with top := (st.top + st.h - 1) % st.h})
  have hh : 0 < st.h := hinv.1
  refine bucketInv_foldcells _ _ _ hinv (Nat.mod_lt _ hh) ?_
  intro x hx
  exact ⟨List.mem_range.mp hx, hrow x (List.mem_range.mp hx)⟩

theorem foldproj_basic (fuel row : ℕ) : ∀ (l : List ℕ) (s st' : WaveFunction),
    (l.foldlM (fun s x =>
      let row2 := (row + 1) % s.h
      let p : ℕ × ℕ := (row2, x)
      projectdirF fuel s ((p.1 + s.h - 1) % s.h, x) p 0) s) = some st' →
    basicConcl s st' := by
  intro l
  induction l with
  | nil =>
    intro s st' h
    rw [List.foldlM_nil] at h
    injection h with h
    rw [← h]
    exact basicConcl_refl s
  | cons x xs ih =>
    intro s st' h
    rw [List.foldlM_cons] at h
    cases hb : projectdirF fuel s (((row + 1) % s.h + s.h - 1) % s.h, x) ((row + 1) % s.h, x) 0 with
    | none => rw [hb] at h; simp at h
    | some s1 =>
      rw [hb] at h
      simp only [Option.some_bind] at h
      exact basicConcl_trans ((propag_basic fuel).1 _ _ _ _ _ hb) (ih _ _ h)

theorem foldproj_inv (fuel row : ℕ) : ∀ (l : List ℕ) (s st' : WaveFunction),
    bucketInv s → (∀ x ∈ l, x < s.w) →
    (l.foldlM (fun s x =>
      let row2 := (row + 1) % s.h
      let p : ℕ × ℕ := (row2, x)
      projectdirF fuel s ((p.1 + s.h - 1) % s.h, x) p 0) s) = some st' →
    bucketInv st' := by
  intro l
  induction l with
  | nil =>
    intro s st' hinv _ h
    rw [List.foldlM_nil] at h
    injection h with h
    rw [← h]
    exact hinv
  | cons x xs ih =>
    intro s st' hinv hl h
    rw [List.foldlM_cons] at h
    cases hb : projectdirF fuel s (((row + 1) % s.h + s.h - 1) % s.h, x) ((row + 1) % s.h, x) 0 with
    | none => rw [hb] at h; simp at h
    | some s1 =>
      rw [hb] at h
      simp only [Option.some_bind] at h
      have hinv1 := (propag_inv fuel).1 _ _ _ _ _
        (Nat.mod_lt _ hinv.1) (hl x (List.mem_cons_self _ _)) hinv hb
      obtain ⟨⟨bh, bw, -, -, -⟩, -, -⟩ := (propag_basic fuel).1 _ _ _ _ _ hb
      refine ih _ _ hinv1 ?_ h
      intro x' hx'
      rw [bw]
      exact hl x' (List.mem_cons_of_mem _ hx')

theorem foldproj_isSome (fuel row : ℕ) : ∀ (l : List ℕ) (s : WaveFunction),
    0 < s.h → 0 < s.w → wellFormed s → (∀ x ∈ l, x < s.w) →
    2 * (s.h * s.w * s.numStates) + 1 ≤ fuel →
    ((l.foldlM (fun s x =>
      let row2 := (row + 1) % s.h
      let p : ℕ × ℕ := (row2, x)
      projectdirF fuel s ((p.1 + s.h - 1) % s.h, x) p 0) s)).isSome = true := by
  intro l
  induction l with
  | nil =>
    intro s _ _ _ _ _
    rw [List.foldlM_nil]
    rfl
  | cons x xs ih =>
    intro s hh hw hwf hl hf
    rw [List.foldlM_cons]
    have hsome := (propag_suffices (s.h * s.w * s.numStates)).1 fuel s
      (((row + 1) % s.h + s.h - 1) % s.h, x) ((row + 1) % s.h, x) 0 hh hw
      (Nat.mod_lt _ hh) (hl x (List.mem_cons_self _ _))
      (totalCard_le_of_wellFormed s hwf) hf
    cases hb : projectdirF fuel s (((row + 1) % s.h + s.h - 1) % s.h, x) ((row + 1) % s.h, x) 0 with
    | none => rw [hb] at hsome; exact absurd hsome (by simp)
    | some s1 =>
      simp only [Option.some_bind]
      obtain ⟨⟨bh, bw, bn, -, -⟩, -, -⟩ := (propag_basic fuel).1 _ _ _ _ _ hb
      refine ih s1 (by rw [bh]; exact hh) (by rw [bw]; exact hw)
        (wellFormed_of_basicConcl ((propag_basic fuel).1 _ _ _ _ _ hb) hwf) ?_ ?_
      · intro x' hx'
        rw [bw]
        exact hl x' (List.mem_cons_of_mem _ hx')
      · rw [bh, bw, bn]
        exact hf

theorem resetrowF_elim {fuel : ℕ} {st st' : WaveFunction}
    (h : resetrowF fuel st = some st') : basicConcl (resetrowPhase1 st) st' := by
  have h' : ((List.range (resetrowPhase1 st).w).foldlM (fun s x =>
      let row2 := ((resetrowPhase1 st).top + 1) % s.h
      let p : ℕ × ℕ := (row2, x)
      projectdirF fuel s ((p.1 + s.h - 1) % s.h, x) p 0) (resetrowPhase1 st)) = some st' := h
  exact foldproj_basic fuel (resetrowPhase1 st).top _ _ _ h'

theorem resetrowF_inv (fuel : ℕ) (st st' : WaveFunction) (hinv : bucketInv st)
    (hrow : ∀ x, x < st.w →
      (st.grid ((st.top + st.h - 1) % st.h, x)).card = 1 ∨
      (st.grid ((st.top + st.h - 1) % st.h, x)).card = st.numStates)
    (h : resetrowF fuel st = some st') : bucketInv st' := by
  have h' : ((List.range (resetrowPhase1 st).w).foldlM (fun s x =>
      let row2 := ((resetrowPhase1 st).top + 1) % s.h
      let p : ℕ × ℕ := (row2, x)
      projectdirF fuel s ((p.1 + s.h - 1) % s.h, x) p 0) (resetrowPhase1 st)) = some st' := h
  have hinv1 := bucketInv_resetrowPhase1 st hinv hrow
  refine foldproj_inv fuel (resetrowPhase1 st).top _ _ _ hinv1 ?_ h'
  intro x hx
  exact List.mem_range.mp hx

theorem wellFormed_resetrowPhase1 (st : WaveFunction) (hwf : wellFormed st) :
    wellFormed (resetrowPhase1 st) := by
  obtain ⟨gh, gw, gn, gp, gt, ggrid, gfull, gmem⟩ := resetrowPhase1_facts st
  intro q
  rw [gn]
  by_cases hq : q.1 = (st.top + st.h - 1) % st.h ∧ q.2 < st.w
  · have : q = ((st.top + st.h - 1) % st.h, q.2) := by
      rw [Prod.ext_iff]
      exact ⟨hq.1, rfl⟩
    rw [this, gfull q.2 hq.2]
  · rw [ggrid q (fun h1 h2 => hq ⟨h1, h2⟩)]
    exact hwf q

theorem resetrowF_wf (fuel : ℕ) (st st' : WaveFunction) (hwf : wellFormed st)
    (h : resetrowF fuel st = some st') : wellFormed st' :=
  wellFormed_of_basicConcl (resetrowF_elim h) (wellFormed_resetrowPhase1 st hwf)

theorem resetrowF_isSome (st : WaveFunction) (hh : 0 < st.h) (hw : 0 < st.w)
    (hwf : wellFormed st) :
    (resetrowF (2 * (st.h * st.w * st.numStates) + 2) st).isSome = true := by
  show ((List.range (resetrowPhase1 st).w).foldlM (fun s x =>
      let row2 := ((resetrowPhase1 st).top + 1) % s.h
      let p : ℕ × ℕ := (row2, x)
      projectdirF (2 * (st.h * st.w * st.numStates) + 2) s
        ((p.1 + s.h - 1) % s.h, x) p 0) (resetrowPhase1 st)).isSome = true
  obtain ⟨gh, gw, gn, gp, gt, ggrid, gfull, gmem⟩ := resetrowPhase1_facts st
  refine foldproj_isSome _ _ _ _ (by rw [gh]; exact hh) (by rw [gw]; exact hw)
    (wellFormed_resetrowPhase1 st hwf) (fun x hx => List.mem_range.mp hx) ?_
  rw [gh, gw, gn]
  omega

/-! ## The freshly constructed state -/

theorem wellFormed_new (h w K : ℕ) (proj : ℕ → ℕ → Finset ℕ) :
    wellFormed (WaveFunction.new h w K proj) := by
  intro q
  show (if q.1 < h ∧ q.2 < w then Finset.range K else ∅) ⊆ Finset.range K
  split
  · exact Finset.Subset.refl _
  · exact Finset.empty_subset _

theorem bucketInv_new (h w K : ℕ) (proj : ℕ → ℕ → Finset ℕ)
    (hh : 0 < h) (hw : 0 < w) : bucketInv (WaveFunction.new h w K proj) := by
  refine ⟨hh, hw, ?_, ?_⟩
  · intro y x hy hx k
    replace hy : y < h := hy
    replace hx : x < w := hx
    show ((y, x) ∈ (if k = K then (Finset.range h) ×ˢ (Finset.range w) else ∅)) ↔
      k = (if ((y, x) : ℕ × ℕ).1 < h ∧ ((y, x) : ℕ × ℕ).2 < w then Finset.range K else ∅).card
    rw [if_pos (show ((y, x) : ℕ × ℕ).1 < h ∧ ((y, x) : ℕ × ℕ).2 < w from ⟨hy, hx⟩)]
    rw [Finset.card_range]
    by_cases hk : k = K
    · subst hk
      rw [if_pos rfl]
      refine iff_of_true ?_ rfl
      rw [Finset.mem_product, Finset.mem_range, Finset.mem_range]
      exact ⟨hy, hx⟩
    · rw [if_neg hk]
      exact iff_of_false (Finset.not_mem_empty _) hk
  · intro k p hp
    replace hp : p ∈ (if k = K then (Finset.range h) ×ˢ (Finset.range w) else ∅) := hp
    show p.1 < h ∧ p.2 < w
    split at hp
    · rw [Finset.mem_product, Finset.mem_range, Finset.mem_range] at hp
      exact hp
    · exact absurd hp (Finset.not_mem_empty _)

/-! # The claims -/

/-- C9: propagation directed into a cell with fewer than two candidates is a
no-op: `projectdir` only updates the debug cursor and neither rewrites the
cell, touches the entropy groups, nor recurses (its local step reports "do
not recurse"); consequently a cell that is resolved (or contradicted) when
a propagation starts holds exactly the same candidate set when it ends, so
a resolved cell's tile is never altered by later propagation. -/
theorem c9_skip_frame :
    (∀ (f : ℕ) (st : WaveFunction) (t op : ℕ × ℕ) (d : ℕ),
      (st.grid t).card < 2 →
      projectdirStep st t op d = ({st with cursor := (t, op)}, false) ∧
      projectdirF (f + 1) st t op d = some {st with cursor := (t, op)}) ∧
    (∀ (f : ℕ) (st : WaveFunction) (p : ℕ × ℕ) (st' : WaveFunction) (q : ℕ × ℕ),
      projectStateF f st p = some st' → (st.grid q).card < 2 →
      st'.grid q = st.grid q) := by
  constructor
  · intro f st t op d hc
    refine ⟨projectdirStep_skip st t op d hc, ?_⟩
    rw [projectdirF_succ, projectdirStep_skip st t op d hc]
    rfl
  · intro f st p st' q h hc
    exact ((propag_basic f).2 _ _ _ h).2.2 q hc

/-- Witness for C9 at concrete inputs: in `ceC2` the up-neighbor `(1,0)` of
`(0,0)` is resolved, and projecting into it changes only the cursor; a full
propagation over the resolved grid `ceC2` leaves the resolved cell intact. -/
theorem c9_witness :
    ((ceC2.grid (1, 0)).card < 2 ∧
      projectdirF 4 ceC2 (1, 0) (0, 0) 0 = some {ceC2 with cursor := ((1, 0), (0, 0))}) ∧
    (∃ st', projectStateF 5 ceC2 (0, 0) = some st' ∧ st'.grid (1, 0) = ceC2.grid (1, 0)) := by
  have hs : (projectStateF 5 ceC2 (0, 0)).isSome = true := by decide
  refine ⟨⟨by decide, (c9_skip_frame.1 3 ceC2 (1, 0) (0, 0) 0 (by decide)).2⟩,
    ⟨(projectStateF 5 ceC2 (0, 0)).get hs, (Option.some_get hs).symm, ?_⟩⟩
  exact c9_skip_frame.2 5 ceC2 (0, 0) _ (1, 0) (Option.some_get hs).symm (by decide)

/-- C10: every candidate set is a subset of the tile catalog
`{0, …, numStates−1}`: this holds at construction and is preserved by
propagation, by `collapseMaybe` and by `resetrow`; hence every cell's
cardinality is at most `numStates`, and both bucket indices `projectdir`
touches (`sscount` and `sscountfinal`) are within the `numStates + 1`
buckets the constructor allocates. -/
theorem c10_wellFormed_bounds :
    (∀ (h w K : ℕ) (proj : ℕ → ℕ → Finset ℕ), wellFormed (WaveFunction.new h w K proj)) ∧
    (∀ (f : ℕ) (st : WaveFunction) (p : ℕ × ℕ) (st' : WaveFunction),
      wellFormed st → projectStateF f st p = some st' → wellFormed st') ∧
    (∀ (f : ℕ) (st : WaveFunction) (b : Bool) (st' : WaveFunction),
      wellFormed st → collapseMaybeF f st = some (b, st') → wellFormed st') ∧
    (∀ (f : ℕ) (st st' : WaveFunction),
      wellFormed st → resetrowF f st = some st' → wellFormed st') ∧
    (∀ (st : WaveFunction) (q : ℕ × ℕ), wellFormed st → (st.grid q).card ≤ st.numStates) ∧
    (∀ (st : WaveFunction) (t op : ℕ × ℕ) (d : ℕ), wellFormed st →
      (st.grid t).card ≤ st.numStates ∧
      ((st.grid t) ∩ projection_ss st (st.grid op) d).card ≤ st.numStates) := by
  have hcard : ∀ (st : WaveFunction) (q : ℕ × ℕ), wellFormed st →
      (st.grid q).card ≤ st.numStates := by
    intro st q hwf
    calc (st.grid q).card ≤ (Finset.range st.numStates).card := Finset.card_le_card (hwf q)
      _ = st.numStates := Finset.card_range _
  refine ⟨fun h w K proj => wellFormed_new h w K proj,
    fun f st p st' hwf hps => wellFormed_of_basicConcl ((propag_basic f).2 _ _ _ hps) hwf,
    fun f st b st' hwf h => collapseMaybeF_wf f st b st' hwf h,
    fun f st st' hwf h => resetrowF_wf f st st' hwf h,
    hcard, ?_⟩
  intro st t op d hwf
  refine ⟨hcard st t hwf, ?_⟩
  calc ((st.grid t) ∩ projection_ss st (st.grid op) d).card
      ≤ (st.grid t).card := Finset.card_le_card Finset.inter_subset_left
    _ ≤ st.numStates := hcard st t hwf

/-- Witness for C10 at concrete inputs: the invariant holds of `ceC5` and is
preserved by a full propagation from `(0,0)` there. -/
theorem c10_witness :
    wellFormed ceC5 ∧
    (∃ st', projectStateF 20 ceC5 (0, 0) = some st' ∧ wellFormed st') ∧
    (ceC5.grid (0, 0)).card ≤ ceC5.numStates := by
  have hwf : wellFormed ceC5 := by
    intro q
    show (if q = (0, 0) ∨ q = (1, 0) ∨ q = (2, 0) then ({0, 1} : Finset ℕ) else ∅) ⊆
      Finset.range 2
    split
    · decide
    · decide
  have hs : (projectStateF 20 ceC5 (0, 0)).isSome = true := by decide
  exact ⟨hwf,
    ⟨(projectStateF 20 ceC5 (0, 0)).get hs, (Option.some_get hs).symm,
      c10_wellFormed_bounds.2.1 20 ceC5 (0, 0) _ hwf (Option.some_get hs).symm⟩,
    c10_wellFormed_bounds.2.2.2.2.1 ceC5 (0, 0) hwf⟩

/-- C4: propagation terminates.  The local step recurses only when the
target's cardinality strictly decreased; cardinalities never increase
across a completed propagation; and a fuel of `2·h·w·numStates + 2`
(`O(N·K)` for an `N`-cell, `K`-tile grid) is enough for `projectState`
started at any in-grid cell, for a `collapseMaybe` step, and for a
`resetrow`, to complete — the unfuelled Rust recursion makes only finitely
many calls, at most `O(N·K)` of them cardinality-reducing, before the run
reaches its Done/Contradiction outcome. -/
theorem c4_termination :
    (∀ (st : WaveFunction) (t op : ℕ × ℕ) (d : ℕ),
      (projectdirStep st t op d).2 = true →
      ((projectdirStep st t op d).1.grid t).card < (st.grid t).card) ∧
    (∀ (f : ℕ) (st : WaveFunction) (p : ℕ × ℕ) (st' : WaveFunction) (q : ℕ × ℕ),
      projectStateF f st p = some st' → (st'.grid q).card ≤ (st.grid q).card) ∧
    (∀ (st : WaveFunction) (p : ℕ × ℕ), 0 < st.h → 0 < st.w → p.1 < st.h → p.2 < st.w →
      wellFormed st →
      (projectStateF (2 * (st.h * st.w * st.numStates) + 2) st p).isSome = true) ∧
    (∀ st : WaveFunction, bucketInv st → wellFormed st →
      (collapseMaybeF (2 * (st.h * st.w * st.numStates) + 2) st).isSome = true) ∧
    (∀ st : WaveFunction, 0 < st.h → 0 < st.w → wellFormed st →
      (resetrowF (2 * (st.h * st.w * st.numStates) + 2) st).isSome = true) := by
  refine ⟨?_, ?_, ?_, ?_, ?_⟩
  · intro st t op d hb
    exact (projectdirStep_true st t op d hb).2.2.1
  · intro f st p st' q h
    exact Finset.card_le_card (((propag_basic f).2 _ _ _ h).2.1 q)
  · intro st p hh hw hp1 hp2 hwf
    exact (propag_suffices (st.h * st.w * st.numStates)).2 _ st p hh hw hp1 hp2
      (totalCard_le_of_wellFormed st hwf) (le_refl _)
  · intro st hinv hwf
    exact collapseMaybeF_isSome st hinv hwf
  · intro st hh hw hwf
    exact resetrowF_isSome st hh hw hwf

/-- Witness for C4 at a concrete input: a fresh 2×1 grid over 2 permissive
tiles; both a collapse step and a row reset complete within the stated
fuel, and a completed propagation did not increase any cardinality. -/
theorem c4_witness :
    (collapseMaybeF (2 * ((WaveFunction.new 2 1 2 pjFull2).h *
        (WaveFunction.new 2 1 2 pjFull2).w * (WaveFunction.new 2 1 2 pjFull2).numStates) + 2)
      (WaveFunction.new 2 1 2 pjFull2)).isSome = true ∧
    (resetrowF (2 * ((WaveFunction.new 2 1 2 pjFull2).h *
        (WaveFunction.new 2 1 2 pjFull2).w * (WaveFunction.new 2 1 2 pjFull2).numStates) + 2)
      (WaveFunction.new 2 1 2 pjFull2)).isSome = true ∧
    (∃ st', projectStateF 20 ceC5 (0, 0) = some st' ∧
      ((st'.grid (0, 0)).card ≤ (ceC5.grid (0, 0)).card)) := by
  have hwf : wellFormed (WaveFunction.new 2 1 2 pjFull2) := wellFormed_new 2 1 2 pjFull2
  have hinv : bucketInv (WaveFunction.new 2 1 2 pjFull2) :=
    bucketInv_new 2 1 2 pjFull2 (by decide) (by decide)
  have hs : (projectStateF 20 ceC5 (0, 0)).isSome = true := by decide
  exact ⟨c4_termination.2.2.2.1 _ hinv hwf,
    c4_termination.2.2.2.2 _ (by decide) (by decide) hwf,
    ⟨(projectStateF 20 ceC5 (0, 0)).get hs, (Option.some_get hs).symm,
      c4_termination.2.1 20 ceC5 (0, 0) _ (0, 0) (Option.some_get hs).symm⟩⟩

theorem bucketInv_ceC3 : bucketInv ceC3 := by
  refine ⟨by decide, by decide, ?_, ?_⟩
  · intro y x hy hx k
    replace hy : y < 2 := hy
    replace hx : x < 1 := hx
    by_cases hk1 : k = 1
    · subst hk1
      interval_cases y <;> interval_cases x <;> decide
    · by_cases hk2 : k = 2
      · subst hk2
        interval_cases y <;> interval_cases x <;> decide
      · have hst : ceC3.groups k = (if k = 1 then ({((0 : ℕ), (0 : ℕ))} : Finset (ℕ × ℕ))
            else if k = 2 then {((1 : ℕ), (0 : ℕ))} else ∅) := rfl
        rw [hst, if_neg hk1, if_neg hk2]
        interval_cases y <;> interval_cases x
        · exact iff_of_false (Finset.not_mem_empty _) (by
            have : (ceC3.grid (0, 0)).card = 1 := by decide
            rw [this]; exact hk1)
        · exact iff_of_false (Finset.not_mem_empty _) (by
            have : (ceC3.grid (1, 0)).card = 2 := by decide
            rw [this]; exact hk2)
  · intro k p hp
    replace hp : p ∈ (if k = 1 then ({((0 : ℕ), (0 : ℕ))} : Finset (ℕ × ℕ))
        else if k = 2 then {((1 : ℕ), (0 : ℕ))} else ∅) := hp
    show p.1 < 2 ∧ p.2 < 1
    split_ifs at hp
    · rw [Finset.mem_singleton] at hp
      subst hp
      decide
    · rw [Finset.mem_singleton] at hp
      subst hp
      decide
    · exact absurd hp (Finset.not_mem_empty _)

/-- C3 counterexample: `ceC3` is a consistent (bucket invariant holds),
non-contradicted 2×1 state over 3 tiles whose to-be-recycled row's cell
holds 2 of 3 candidates.  `resetrow` removes that cell from bucket 1 only
(src/src/main.rs:200), so after `resetrow` the cell sits in bucket 2 *and*
bucket 3 while its cardinality is 3 — it is in two buckets, and in one
whose index differs from its cardinality, refuting the claim that every
`resetrow` from a consistent non-contradicted state preserves the
invariant. -/
theorem c3_counterexample :
    bucketInv ceC3 ∧
    (ceC3.grid (0, 0)).card = 1 ∧ (ceC3.grid (1, 0)).card = 2 ∧ ceC3.numStates = 3 ∧
    (resetrowF 30 ceC3).map (fun s =>
      (decide ((1, 0) ∈ s.groups 2), decide ((1, 0) ∈ s.groups 3), (s.grid (1, 0)).card)) =
      some (true, true, 3) :=
  ⟨bucketInv_ceC3, by decide, by decide, by decide, by decide⟩

/-- C3 (amended): the bucket-consistency invariant — every in-grid cell is
in exactly one entropy bucket, the one indexed by its current candidate
cardinality — holds after construction and is preserved by every complete
`collapseMaybe`; it is preserved by `resetrow` provided every cell of the
row about to be recycled is resolved (cardinality 1) or fully superposed
(cardinality = tile count) — the situation in every scrolling run, which
recycles only fully resolved grids.  (Unrestricted `resetrow` breaks it:
see the counterexample.) -/
theorem c3_bucket_consistency :
    (∀ (h w K : ℕ) (proj : ℕ → ℕ → Finset ℕ), 0 < h → 0 < w →
      bucketInv (WaveFunction.new h w K proj)) ∧
    (∀ (f : ℕ) (st : WaveFunction) (b : Bool) (st' : WaveFunction),
      bucketInv st → collapseMaybeF f st = some (b, st') → bucketInv st') ∧
    (∀ (f : ℕ) (st st' : WaveFunction), bucketInv st →
      (∀ x, x < st.w →
        (st.grid ((st.top + st.h - 1) % st.h, x)).card = 1 ∨
        (st.grid ((st.top + st.h - 1) % st.h, x)).card = st.numStates) →
      resetrowF f st = some st' → bucketInv st') ∧
    (∀ st : WaveFunction, bucketInv st → ∀ y x, y < st.h → x < st.w →
      ((y, x) ∈ st.groups ((st.grid (y, x)).card) ∧
        ∀ k, (y, x) ∈ st.groups k → k = (st.grid (y, x)).card)) := by
  refine ⟨fun h w K proj hh hw => bucketInv_new h w K proj hh hw,
    fun f st b st' hinv h => collapseMaybeF_inv f st b st' hinv h,
    fun f st st' hinv hrow h => resetrowF_inv f st st' hinv hrow h, ?_⟩
  intro st hinv y x hy hx
  exact ⟨(hinv.2.2.1 y x hy hx _).mpr rfl, fun k hk => (hinv.2.2.1 y x hy hx k).mp hk⟩

/-- Witness for C3 at a concrete input: on a fresh 2×1 grid over 2
permissive tiles, both a collapse step and a (fully superposed rows) row
reset preserve the invariant. -/
theorem c3_witness :
    (∃ b st', collapseMaybeF 30 (WaveFunction.new 2 1 2 pjFull2) = some (b, st') ∧
      bucketInv st') ∧
    (∃ st', resetrowF 30 (WaveFunction.new 2 1 2 pjFull2) = some st' ∧ bucketInv st') := by
  have hinv0 : bucketInv (WaveFunction.new 2 1 2 pjFull2) :=
    c3_bucket_consistency.1 2 1 2 pjFull2 (by decide) (by decide)
  have hs1 : (collapseMaybeF 30 (WaveFunction.new 2 1 2 pjFull2)).isSome = true := by decide
  have hs2 : (resetrowF 30 (WaveFunction.new 2 1 2 pjFull2)).isSome = true := by decide
  refine ⟨⟨((collapseMaybeF 30 (WaveFunction.new 2 1 2 pjFull2)).get hs1).1,
      ((collapseMaybeF 30 (WaveFunction.new 2 1 2 pjFull2)).get hs1).2,
      (Option.some_get hs1).symm,
      c3_bucket_consistency.2.1 30 _ _ _ hinv0 (Option.some_get hs1).symm⟩,
    ⟨(resetrowF 30 (WaveFunction.new 2 1 2 pjFull2)).get hs2, (Option.some_get hs2).symm,
      c3_bucket_consistency.2.2.1 30 _ _ hinv0 ?_ (Option.some_get hs2).symm⟩⟩
  intro x hx
  replace hx : x < 1 := hx
  interval_cases x
  decide

/-- C6 counterexample: `ceC6` is a fully resolved 2×1 grid over 2 tiles
(tile 0 permits only tile 0 above itself).  Immediately after
`resetrow` returns, the recycled top-row cell does *not* report full
superposition: the in-function re-propagation from the resolved neighbor
row has already cut it to cardinality 1 and moved it out of the top
bucket. -/
theorem c6_counterexample :
    (ceC6.grid (0, 0)).card = 1 ∧ (ceC6.grid (1, 0)).card = 1 ∧ ceC6.numStates = 2 ∧
    (resetrowF 30 ceC6).map (fun s =>
      ((s.grid (s.top, 0)).card, decide ((s.top, 0) ∈ s.groups 2))) = some (1, false) :=
  ⟨by decide, by decide, by decide, by decide⟩

/-- C6 (amended): inside `resetrow`, after the reset loop and before the
re-propagation loop, every cell of the recycled row holds the full
candidate set (cardinality = tile count) and sits in the top bucket;
`resetrow` then re-propagates from the neighbor row before returning, so
when it returns the recycled cells are only guaranteed to hold subsets of
the full tile set (they may already be cut down, even to singletons). -/
theorem c6_reset_row :
    ∀ st : WaveFunction,
      (∀ x, x < st.w →
        (resetrowPhase1 st).grid ((resetrowPhase1 st).top, x) = Finset.range st.numStates ∧
        ((resetrowPhase1 st).grid ((resetrowPhase1 st).top, x)).card = st.numStates ∧
        ((resetrowPhase1 st).top, x) ∈ (resetrowPhase1 st).groups st.numStates) ∧
      (∀ fuel st', resetrowF fuel st = some st' →
        st'.top = (st.top + st.h - 1) % st.h ∧
        ∀ x, x < st.w → st'.grid (st'.top, x) ⊆ Finset.range st.numStates) := by
  intro st
  obtain ⟨gh, gw, gn, gp, gt, ggrid, gfull, gmem⟩ := resetrowPhase1_facts st
  constructor
  · intro x hx
    rw [gt]
    exact ⟨gfull x hx, by rw [gfull x hx, Finset.card_range], gmem x hx⟩
  · intro fuel st' h
    obtain ⟨⟨bh, bw, bn, bp, bt⟩, bg, bs⟩ := resetrowF_elim h
    have htop : st'.top = (st.top + st.h - 1) % st.h := by rw [bt, gt]
    refine ⟨htop, ?_⟩
    intro x hx
    rw [htop]
    calc st'.grid ((st.top + st.h - 1) % st.h, x)
        ⊆ (resetrowPhase1 st).grid ((st.top + st.h - 1) % st.h, x) := bg _
      _ = Finset.range st.numStates := gfull x hx

/-- Witness for C6 at a concrete input: the fully resolved grid `ceC6`. -/
theorem c6_witness :
    ((resetrowPhase1 ceC6).grid ((resetrowPhase1 ceC6).top, 0) = Finset.range 2 ∧
      ((resetrowPhase1 ceC6).grid ((resetrowPhase1 ceC6).top, 0)).card = 2 ∧
      ((resetrowPhase1 ceC6).top, 0) ∈ (resetrowPhase1 ceC6).groups 2) ∧
    (∃ st', resetrowF 30 ceC6 = some st' ∧ st'.top = (ceC6.top + ceC6.h - 1) % ceC6.h ∧
      st'.grid (st'.top, 0) ⊆ Finset.range 2) := by
  have hs : (resetrowF 30 ceC6).isSome = true := by decide
  have happ := c6_reset_row ceC6
  refine ⟨happ.1 0 (by decide), ⟨(resetrowF 30 ceC6).get hs, (Option.some_get hs).symm, ?_, ?_⟩⟩
  · exact (happ.2 30 _ (Option.some_get hs).symm).1
  · exact (happ.2 30 _ (Option.some_get hs).symm).2 0 (by decide)

/-- C1 counterexample: on a fresh 2×2 grid whose tile 0 permits no
neighbors at all, the first `collapseMaybe` collapses `(0,0)` to tile 0 and
propagation empties `(1,0)` and `(0,1)` — yet it returns `true`
("collapsed", i.e. success).  The driver keeps going: the second call
collapses `(1,1)` and returns `true` again, and the third returns `false`
("done") with cell `(1,0)` still empty.  No contradiction is ever reported
upward. -/
theorem c1_counterexample :
    ((collapseMaybeF 30 (WaveFunction.new 2 2 2 pjC1)).bind (fun r =>
      (collapseMaybeF 30 r.2).bind (fun r2 =>
        (collapseMaybeF 30 r2.2).map (fun r3 =>
          (r.1, r2.1, r3.1, r3.2.grid (1, 0)))))) = some (true, true, false, ∅) := by
  decide

/-- C1 (amended): propagation failures are *not* reported upward.  When the
intersection at a target cell is empty, `projectdir` installs the empty set
(moving the cell into bucket 0), does not recurse into it, and returns
success (`Some(())` in the source, here the updated state); `collapseAt`
and `collapseMaybe` likewise report `true` ("collapsed") even when the
propagation they triggered emptied some cell; the driver loop therefore
continues to collapse further cells as if nothing happened. -/
theorem c1_no_upward_contradiction :
    (∀ (f : ℕ) (st : WaveFunction) (t op : ℕ × ℕ) (d : ℕ),
      2 ≤ (st.grid t).card →
      (st.grid t) ∩ projection_ss st (st.grid op) d = ∅ →
      projectdirF (f + 1) st t op d =
        some (applyWrite {st with cursor := (t, op)} t ∅)) ∧
    (∀ (fuel : ℕ) (st : WaveFunction) (p : ℕ × ℕ) (st1 st2 : WaveFunction) (q : ℕ × ℕ),
      getLowestEntropy st = some (p, st1) →
      collapseAtF fuel st1 p = some st2 →
      st2.grid q = ∅ →
      collapseMaybeF fuel st = some (true, st2)) := by
  constructor
  · intro f st t op d h2 hempty
    have he : (st.grid t).card ≠ ((st.grid t) ∩ projection_ss st (st.grid op) d).card := by
      rw [hempty, Finset.card_empty]
      omega
    rw [projectdirF_succ, projectdirStep_change st t op d h2 he, hempty]
    rfl
  · intro fuel st p st1 st2 q hg hc hq
    unfold collapseMaybeF
    rw [hg]
    show (collapseAtF fuel st1 p).map (fun s => (true, s)) = some (true, st2)
    rw [hc, Option.map_some']

/-- Witness for C1 at the counterexample state: the first collapse step of
the `pjC1` grid empties `(1,0)` yet `collapseMaybe` reports `true`. -/
theorem c1_witness :
    ∃ (p : ℕ × ℕ) (st1 st2 : WaveFunction),
      getLowestEntropy (WaveFunction.new 2 2 2 pjC1) = some (p, st1) ∧
      collapseAtF 30 st1 p = some st2 ∧
      st2.grid (1, 0) = ∅ ∧
      collapseMaybeF 30 (WaveFunction.new 2 2 2 pjC1) = some (true, st2) := by
  have hkey : (getLowestEntropy (WaveFunction.new 2 2 2 pjC1)).map (fun r =>
      (collapseAtF 30 r.2 r.1).map (fun s => decide (s.grid (1, 0) = ∅))) =
      some (some true) := by decide
  rw [Option.map_eq_some'] at hkey
  obtain ⟨r, hg, hr2⟩ := hkey
  rw [Option.map_eq_some'] at hr2
  obtain ⟨s2, hc, hs2⟩ := hr2
  have hempty : s2.grid (1, 0) = ∅ := of_decide_eq_true hs2
  exact ⟨r.1, r.2, s2, hg, hc, hempty,
    c1_no_upward_contradiction.2 30 _ r.1 r.2 s2 (1, 0) hg hc hempty⟩

/-- C2 counterexample: in `ceC2` the up-neighbor `(1,0)` of `(0,0)` is
resolved to tile 1, which tile 0 does not permit above itself; the
propagation step from `(0,0)` leaves the neighbor's candidate set `{1}`
unchanged even though the claimed intersection is `∅` — the "new set =
intersection" equation fails for neighbors with fewer than 2 candidates,
which `projectdir` skips outright (src/src/main.rs:227). -/
theorem c2_counterexample :
    (projectdirF 5 ceC2 (nbrd ceC2 (0, 0) 0) (0, 0) 0).map (fun s =>
      decide (s.grid (nbrd ceC2 (0, 0) 0) =
        ceC2.grid (nbrd ceC2 (0, 0) 0) ∩ projection_ss ceC2 (ceC2.grid (0, 0)) 0)) =
      some false := by
  decide

/-- C2 (amended): for a propagation step from `op` toward its
modulo-addressed neighbor in direction `dir`, *provided the neighbor is
superposed* (cardinality ≥ 2), the local step installs exactly the
intersection of the neighbor's candidate set with the projected allowed
set (the union over `op`'s candidates of `projections[dir]`); when that
intersection has the neighbor's cardinality the entire call returns with
the state unchanged except for the debug cursor (nothing reachable from
the neighbor is touched), and when the cardinality differs the neighbor's
set really changes.  Neighbors with ≤ 1 candidates are skipped unchanged. -/
theorem c2_step_intersection :
    ∀ (st : WaveFunction) (op : ℕ × ℕ) (d f : ℕ),
      2 ≤ (st.grid (nbrd st op d)).card →
      ((projectdirStep st (nbrd st op d) op d).1.grid (nbrd st op d) =
        st.grid (nbrd st op d) ∩ projection_ss st (st.grid op) d) ∧
      ((st.grid (nbrd st op d) ∩ projection_ss st (st.grid op) d).card =
          (st.grid (nbrd st op d)).card →
        projectdirF (f + 1) st (nbrd st op d) op d =
          some {st with cursor := (nbrd st op d, op)}) ∧
      ((st.grid (nbrd st op d) ∩ projection_ss st (st.grid op) d).card ≠
          (st.grid (nbrd st op d)).card →
        (projectdirStep st (nbrd st op d) op d).1.grid (nbrd st op d) ≠
          st.grid (nbrd st op d)) := by
  intro st op d f h2
  by_cases he : (st.grid (nbrd st op d)).card =
      ((st.grid (nbrd st op d)) ∩ projection_ss st (st.grid op) d).card
  · have hstep := projectdirStep_nochange st _ op d h2 he
    refine ⟨?_, fun _ => ?_, fun hne => absurd he.symm hne⟩
    · rw [hstep]
      exact (Finset.eq_of_subset_of_card_le Finset.inter_subset_left (le_of_eq he)).symm
    · rw [projectdirF_succ, hstep]
      rfl
  · have hstep := projectdirStep_change st _ op d h2 he
    have hgrid : (projectdirStep st (nbrd st op d) op d).1.grid (nbrd st op d) =
        st.grid (nbrd st op d) ∩ projection_ss st (st.grid op) d := by
      rw [hstep]
      dsimp only
      rw [applyWrite_grid]
      dsimp only
      rw [if_pos rfl]
    refine ⟨hgrid, fun heq => absurd heq.symm he, fun hne => ?_⟩
    rw [hgrid]
    intro hcontra
    exact hne (by rw [hcontra])

/-- Witness for C2 at a concrete input: in `ceC5` the up-neighbor `(2,0)`
of `(0,0)` is superposed and the intersection keeps its cardinality, so
the full call returns with only the cursor updated. -/
theorem c2_witness :
    2 ≤ (ceC5.grid (nbrd ceC5 (0, 0) 0)).card ∧
    (projectdirStep ceC5 (nbrd ceC5 (0, 0) 0) (0, 0) 0).1.grid (nbrd ceC5 (0, 0) 0) =
      ceC5.grid (nbrd ceC5 (0, 0) 0) ∩ projection_ss ceC5 (ceC5.grid (0, 0)) 0 ∧
    projectdirF 6 ceC5 (nbrd ceC5 (0, 0) 0) (0, 0) 0 =
      some {ceC5 with cursor := (nbrd ceC5 (0, 0) 0, (0, 0))} := by
  refine ⟨by decide, (c2_step_intersection ceC5 (0, 0) 0 5 (by decide)).1, ?_⟩
  exact (c2_step_intersection ceC5 (0, 0) 0 5 (by decide)).2.1 (by decide)

/-- C8 counterexample: on a contradicted cell (empty candidate set) the
cell-state query `stateAt`/`SuperState::state` does not return a
`Contradiction` report — the source `expect`-panics (modelled `none`), so
the query does not "return in every case"; and on a superposed cell it
returns one arbitrary member rather than a `Superposed(count)` report. -/
theorem c8_counterexample :
    stateAtF ceC8 (0, 0) = none ∧ (ceC8.grid (0, 0)).card = 0 ∧
    stateAtF ceC5 (0, 0) = some 0 ∧ (ceC5.grid (0, 0)).card = 2 := by
  decide

/-- C8 (amended): `stateAt` returns the unique tile id when the cell's
cardinality is 1; when the cardinality is at least 2 it returns some
member of the candidate set (the iteration's first, modelled as the
minimum) rather than a superposition count; and when the cardinality is 0
it panics (modelled `none`) rather than returning a `Contradiction` value.
The three-way Resolved/Superposed/Contradiction distinction exists only in
the rendering code (`plotGlyph`), not in this query. -/
theorem c8_stateAt_cases :
    ∀ (st : WaveFunction) (p : ℕ × ℕ),
      ((st.grid p).card = 0 → stateAtF st p = none) ∧
      ((st.grid p).card = 1 → ∃ i, st.grid p = {i} ∧ stateAtF st p = some i) ∧
      (2 ≤ (st.grid p).card → ∃ i, i ∈ st.grid p ∧ stateAtF st p = some i) := by
  intro st p
  refine ⟨?_, ?_, ?_⟩
  · intro h0
    have hne : ¬(st.grid p).Nonempty := by
      rw [Finset.nonempty_iff_ne_empty]
      simp [Finset.card_eq_zero.mp h0]
    exact minNat_of_empty hne
  · intro h1
    obtain ⟨i, hi⟩ := Finset.card_eq_one.mp h1
    refine ⟨i, hi, ?_⟩
    unfold stateAtF
    rw [hi]
    have hne : ({i} : Finset ℕ).Nonempty := ⟨i, Finset.mem_singleton_self i⟩
    rw [minNat_of_nonempty hne]
    rw [Finset.min'_singleton]
  · intro h2
    have hne : (st.grid p).Nonempty := Finset.card_pos.mp (by omega)
    exact ⟨(st.grid p).min' hne, Finset.min'_mem _ _, minNat_of_nonempty hne⟩

/-- Witness for C8 at concrete inputs covering the three cardinality
cases. -/
theorem c8_witness :
    ((ceC8.grid (0, 0)).card = 0 ∧ stateAtF ceC8 (0, 0) = none) ∧
    ((ceC2.grid (0, 0)).card = 1 ∧
      ∃ i, ceC2.grid (0, 0) = {i} ∧ stateAtF ceC2 (0, 0) = some i) ∧
    (2 ≤ (ceC5.grid (0, 0)).card ∧
      ∃ i, i ∈ ceC5.grid (0, 0) ∧ stateAtF ceC5 (0, 0) = some i) :=
  ⟨⟨by decide, (c8_stateAt_cases ceC8 (0, 0)).1 (by decide)⟩,
   ⟨by decide, (c8_stateAt_cases ceC2 (0, 0)).2.1 (by decide)⟩,
   ⟨by decide, (c8_stateAt_cases ceC5 (0, 0)).2.2 (by decide)⟩⟩

/-! ## Edge stability (the arc-consistency core behind idempotence) -/

theorem nbrd_congr {s1 s2 : WaveFunction} (hh : s2.h = s1.h) (hw : s2.w = s1.w) :
    nbrd s2 = nbrd s1 := by
  funext p d
  cases d with
  | zero => show ((p.1 + s2.h - 1) % s2.h, p.2) = ((p.1 + s1.h - 1) % s1.h, p.2); rw [hh]
  | succ d =>
    cases d with
    | zero => show ((p.1 + 1) % s2.h, p.2) = ((p.1 + 1) % s1.h, p.2); rw [hh]
    | succ d =>
      cases d with
      | zero => show (p.1, (p.2 + 1) % s2.w) = (p.1, (p.2 + 1) % s1.w); rw [hw]
      | succ d =>
        show (p.1, (p.2 + s2.w - 1) % s2.w) = (p.1, (p.2 + s1.w - 1) % s1.w); rw [hw]

theorem projection_ss_congr {s1 s2 : WaveFunction} (hp : s2.proj = s1.proj) :
    projection_ss s2 = projection_ss s1 := by
  funext hs d
  unfold projection_ss
  rw [hp]

theorem edgeOK_iff {s1 s2 : WaveFunction} (hh : s2.h = s1.h) (hw : s2.w = s1.w)
    (hp : s2.proj = s1.proj) (hg : s2.grid = s1.grid) (u : ℕ × ℕ) (e : ℕ) :
    edgeOK s2 u e ↔ edgeOK s1 u e := by
  unfold edgeOK
  rw [nbrd_congr hh hw, projection_ss_congr hp, hg]

theorem edgeOK_applyWrite (st : WaveFunction) (t : ℕ × ℕ) (s2 : Finset ℕ)
    (hsub : s2 ⊆ st.grid t) (u : ℕ × ℕ) (e : ℕ) (hu : u ≠ t)
    (hok : edgeOK st u e) : edgeOK (applyWrite st t s2) u e := by
  have hn : nbrd (applyWrite st t s2) = nbrd st :=
    nbrd_congr (applyWrite_h st t s2) (applyWrite_w st t s2)
  have hpj : projection_ss (applyWrite st t s2) = projection_ss st :=
    projection_ss_congr (applyWrite_proj st t s2)
  unfold edgeOK at hok ⊢
  rw [hn, hpj, applyWrite_grid]
  dsimp only
  rw [if_neg hu]
  by_cases hnb : nbrd st u e = t
  · rw [if_pos hnb]
    rcases hok with hok | hok
    · left
      calc s2.card ≤ (st.grid t).card := Finset.card_le_card hsub
        _ = (st.grid (nbrd st u e)).card := by rw [hnb]
        _ ≤ 1 := hok
    · right
      calc s2 ⊆ st.grid t := hsub
        _ = st.grid (nbrd st u e) := by rw [hnb]
        _ ⊆ projection_ss st (st.grid u) e := hok
  · rw [if_neg hnb]
    exact hok

theorem oneE_push {sa sb : WaveFunction} (u : ℕ × ℕ) (e : ℕ) (he : e < 4)
    (hB : ∀ u' e', e' < 4 → edgeOK sa u' e' → edgeOK sb u' e' ∨ sb.grid u' = ∅)
    (hmono : ∀ q, sb.grid q ⊆ sa.grid q)
    (h : edgeOK sa u e ∨ sa.grid u = ∅) :
    edgeOK sb u e ∨ sb.grid u = ∅ := by
  rcases h with h | h
  · exact hB u e he h
  · right
    have := hmono u
    rw [h] at this
    exact Finset.subset_empty.mp this

theorem allE_push {sa sb : WaveFunction} (u : ℕ × ℕ)
    (hB : ∀ u' e', e' < 4 → edgeOK sa u' e' → edgeOK sb u' e' ∨ sb.grid u' = ∅)
    (hmono : ∀ q, sb.grid q ⊆ sa.grid q)
    (h : sa.grid u = ∅ ∨ ∀ e, e < 4 → edgeOK sa u e) :
    sb.grid u = ∅ ∨ ∀ e, e < 4 → edgeOK sb u e := by
  rcases h with h | h
  · left
    have := hmono u
    rw [h] at this
    exact Finset.subset_empty.mp this
  · by_cases hE : sb.grid u = ∅
    · left; exact hE
    · right
      intro e he
      rcases hB u e he (h e he) with hk | hk
      · exact hk
      · exact absurd hk hE

/-- The heart of the idempotence analysis.  For a completed `projectdir`
call along a real edge (`t` is the modulo neighbor of `op`): stable edges
stay stable unless their source cell was emptied; the processed edge
`op → t` ends stable unless `op`'s set was emptied; and any cell whose set
changed ends either empty or with all four of its outgoing edges stable
(every change with a nonzero result immediately recurses through
`projectState`, which re-stabilizes the changed cell's edges).  The same
holds of `projectState`, which additionally leaves all four edges of its
argument stable unless the argument's set was emptied. -/
theorem propag_edge : ∀ f : ℕ,
    (∀ st t op d st', d < 4 → t = nbrd st op d → projectdirF f st t op d = some st' →
      ((∀ u e, e < 4 → edgeOK st u e → edgeOK st' u e ∨ st'.grid u = ∅) ∧
       (edgeOK st' op d ∨ st'.grid op = ∅) ∧
       (∀ u, st'.grid u ≠ st.grid u → st'.grid u = ∅ ∨ ∀ e, e < 4 → edgeOK st' u e))) ∧
    (∀ st (p : ℕ × ℕ) st', projectStateF f st p = some st' →
      ((∀ u e, e < 4 → edgeOK st u e → edgeOK st' u e ∨ st'.grid u = ∅) ∧
       (∀ e, e < 4 → edgeOK st' p e ∨ st'.grid p = ∅) ∧
       (∀ u, st'.grid u ≠ st.grid u → st'.grid u = ∅ ∨ ∀ e, e < 4 → edgeOK st' u e))) := by
  intro f
  induction f with
  | zero =>
    constructor
    · intro st t op d st' _ _ h
      rw [projectdirF_zero] at h
      exact absurd h (by simp)
    · intro st p st' h
      rw [projectStateF_zero] at h
      exact absurd h (by simp)
  | succ f ih =>
    constructor
    · intro st t op d st' hd ht h
      by_cases h1 : (st.grid t).card < 2
      · have hEq : projectdirF (f + 1) st t op d = some {st with cursor := (t, op)} := by
          rw [projectdirF_succ, projectdirStep_skip st t op d h1]
          rfl
        rw [hEq] at h
        injection h with h
        subst h
        refine ⟨?_, ?_, ?_⟩
        · intro u e he hok
          left
          exact (edgeOK_iff rfl rfl rfl rfl u e).mpr hok
        · left
          refine (@edgeOK_iff st _ rfl rfl rfl rfl op d).mpr ?_
          left
          rw [← ht]
          omega
        · intro u hu
          exact absurd rfl hu
      · have h2 : 2 ≤ (st.grid t).card := by omega
        by_cases he : (st.grid t).card = ((st.grid t) ∩ projection_ss st (st.grid op) d).card
        · have hEq : projectdirF (f + 1) st t op d = some {st with cursor := (t, op)} := by
            rw [projectdirF_succ, projectdirStep_nochange st t op d h2 he]
            rfl
          rw [hEq] at h
          injection h with h
          subst h
          have hsub : st.grid t ⊆ projection_ss st (st.grid op) d := by
            have heq := Finset.eq_of_subset_of_card_le Finset.inter_subset_left (le_of_eq he)
            rw [← heq]
            exact Finset.inter_subset_right
          refine ⟨?_, ?_, ?_⟩
          · intro u e he' hok
            left
            exact (edgeOK_iff rfl rfl rfl rfl u e).mpr hok
          · left
            refine (@edgeOK_iff st _ rfl rfl rfl rfl op d).mpr ?_
            right
            rw [← ht]
            exact hsub
          · intro u hu
            exact absurd rfl hu
        · have hstep := projectdirStep_change st t op d h2 he
          rw [projectdirF_succ, hstep] at h
          dsimp only at h
          have hWgrid_t : (applyWrite {st with cursor := (t, op)} t
              ((st.grid t) ∩ projection_ss st (st.grid op) d)).grid t =
              (st.grid t) ∩ projection_ss st (st.grid op) d := by
            rw [applyWrite_grid]
            dsimp only
            rw [if_pos rfl]
          have hWgrid_ne : ∀ u : ℕ × ℕ, u ≠ t →
              (applyWrite {st with cursor := (t, op)} t
                ((st.grid t) ∩ projection_ss st (st.grid op) d)).grid u = st.grid u := by
            intro u hu
            rw [applyWrite_grid]
            dsimp only
            rw [if_neg hu]
          by_cases hzero : ((st.grid t) ∩ projection_ss st (st.grid op) d).card = 0
          · rw [decide_eq_false (not_not_intro hzero)] at h
            rw [if_neg (by simp)] at h
            injection h with h
            subst h
            have hE : (applyWrite {st with cursor := (t, op)} t
                ((st.grid t) ∩ projection_ss st (st.grid op) d)).grid t = ∅ := by
              rw [hWgrid_t]
              exact Finset.card_eq_zero.mp hzero
            refine ⟨?_, ?_, ?_⟩
            · intro u e he' hok
              by_cases hu : u = t
              · right
                rw [hu]
                exact hE
              · left
                exact edgeOK_applyWrite _ t _ Finset.inter_subset_left u e hu
                  ((edgeOK_iff rfl rfl rfl rfl u e).mpr hok)
            · left
              unfold edgeOK
              left
              have hnb : nbrd (applyWrite {st with cursor := (t, op)} t
                  ((st.grid t) ∩ projection_ss st (st.grid op) d)) op d = nbrd st op d :=
                congrFun (congrFun (nbrd_congr (applyWrite_h _ _ _) (applyWrite_w _ _ _)) op) d
              rw [hnb, ← ht, hE]
              simp
            · intro u hu
              by_cases hut : u = t
              · left
                rw [hut]
                exact hE
              · exact absurd (hWgrid_ne u hut) hu
          · rw [decide_eq_true hzero, if_pos rfl] at h
            obtain ⟨ihB, ihC, ihD⟩ := ih.2 _ t st' h
            obtain ⟨⟨rh, rw', rn, rp, rt⟩, rmono, -⟩ := (propag_basic f).2 _ _ _ h
            have hsh : st'.h = st.h := rh.trans (applyWrite_h _ _ _)
            have hsw : st'.w = st.w := rw'.trans (applyWrite_w _ _ _)
            have hsp : st'.proj = st.proj := rp.trans (applyWrite_proj _ _ _)
            refine ⟨?_, ?_, ?_⟩
            · intro u e he' hok
              by_cases hu : u = t
              · rw [hu]
                exact ihC e he'
              · exact ihB u e he' (edgeOK_applyWrite _ t _ Finset.inter_subset_left u e hu
                  ((edgeOK_iff rfl rfl rfl rfl u e).mpr hok))
            · by_cases hopt : op = t
              · rw [hopt]
                exact ihC d hd
              · by_cases hop : st'.grid op = st.grid op
                · left
                  unfold edgeOK
                  right
                  have hnb : nbrd st' op d = nbrd st op d :=
                    congrFun (congrFun (nbrd_congr hsh hsw) op) d
                  have hpj : projection_ss st' = projection_ss st := projection_ss_congr hsp
                  rw [hnb, ← ht, hpj, hop]
                  calc st'.grid t
                      ⊆ (applyWrite {st with cursor := (t, op)} t
                        ((st.grid t) ∩ projection_ss st (st.grid op) d)).grid t := rmono t
                    _ = (st.grid t) ∩ projection_ss st (st.grid op) d := hWgrid_t
                    _ ⊆ projection_ss st (st.grid op) d := Finset.inter_subset_right
                · have hop' : st'.grid op ≠ (applyWrite {st with cursor := (t, op)} t
                      ((st.grid t) ∩ projection_ss st (st.grid op) d)).grid op := by
                    rw [hWgrid_ne op hopt]
                    exact hop
                  rcases ihD op hop' with hx | hx
                  · right
                    exact hx
                  · left
                    exact hx d hd
            · intro u hu
              by_cases hut : u = t
              · subst hut
                by_cases hE : st'.grid u = ∅
                · left
                  exact hE
                · right
                  intro e he'
                  rcases ihC e he' with hk | hk
                  · exact hk
                  · exact absurd hk hE
              · have hu' : st'.grid u ≠ (applyWrite {st with cursor := (t, op)} t
                    ((st.grid t) ∩ projection_ss st (st.grid op) d)).grid u := by
                  rw [hWgrid_ne u hut]
                  exact hu
                exact ihD u hu'
    · intro st p st' h
      rw [projectStateF_succ] at h
      cases h1 : projectdirF f st (nbrd st p 0) p 0 with
      | none => rw [h1] at h; simp at h
      | some s1 =>
        rw [h1, Option.some_bind] at h
        cases h2 : projectdirF f s1 (nbrd st p 1) p 1 with
        | none => rw [h2] at h; simp at h
        | some s2 =>
          rw [h2, Option.some_bind] at h
          cases h3 : projectdirF f s2 (nbrd st p 2) p 2 with
          | none => rw [h3] at h; simp at h
          | some s3 =>
            rw [h3, Option.some_bind] at h
            obtain ⟨⟨a1h, a1w, -, -, -⟩, m1, -⟩ := (propag_basic f).1 _ _ _ _ _ h1
            obtain ⟨⟨a2h, a2w, -, -, -⟩, m2, -⟩ := (propag_basic f).1 _ _ _ _ _ h2
            obtain ⟨⟨a3h, a3w, -, -, -⟩, m3, -⟩ := (propag_basic f).1 _ _ _ _ _ h3
            obtain ⟨⟨a4h, a4w, -, -, -⟩, m4, -⟩ := (propag_basic f).1 _ _ _ _ _ h
            have ht1 : nbrd st p 1 = nbrd s1 p 1 :=
              (congrFun (congrFun (nbrd_congr a1h a1w) p) 1).symm
            have ht2 : nbrd st p 2 = nbrd s2 p 2 :=
              (congrFun (congrFun (nbrd_congr (a2h.trans a1h) (a2w.trans a1w)) p) 2).symm
            have ht3 : nbrd st p 3 = nbrd s3 p 3 :=
              (congrFun (congrFun (nbrd_congr (a3h.trans (a2h.trans a1h))
                (a3w.trans (a2w.trans a1w))) p) 3).symm
            obtain ⟨B1, C1, D1⟩ := ih.1 st _ p 0 s1 (by omega) rfl h1
            obtain ⟨B2, C2, D2⟩ := ih.1 s1 _ p 1 s2 (by omega) ht1 h2
            obtain ⟨B3, C3, D3⟩ := ih.1 s2 _ p 2 s3 (by omega) ht2 h3
            obtain ⟨B4, C4d, D4⟩ := ih.1 s3 _ p 3 st' (by omega) ht3 h
            refine ⟨?_, ?_, ?_⟩
            · intro u e he hok
              exact oneE_push u e he B4 m4 (oneE_push u e he B3 m3
                (oneE_push u e he B2 m2 (B1 u e he hok)))
            · intro e he
              interval_cases e
              · exact oneE_push p 0 (by omega) B4 m4 (oneE_push p 0 (by omega) B3 m3
                  (oneE_push p 0 (by omega) B2 m2 C1))
              · exact oneE_push p 1 (by omega) B4 m4 (oneE_push p 1 (by omega) B3 m3 C2)
              · exact oneE_push p 2 (by omega) B4 m4 C3
              · exact C4d
            · intro u hu
              by_cases e4 : st'.grid u = s3.grid u
              · by_cases e3 : s3.grid u = s2.grid u
                · by_cases e2 : s2.grid u = s1.grid u
                  · have hne1 : s1.grid u ≠ st.grid u := by
                      intro hcc
                      exact hu (by rw [e4, e3, e2, hcc])
                    exact allE_push u B4 m4 (allE_push u B3 m3
                      (allE_push u B2 m2 (D1 u hne1)))
                  · exact allE_push u B4 m4 (allE_push u B3 m3 (D2 u e2))
                · exact allE_push u B4 m4 (D3 u e3)
              · exact D4 u e4

/-- A `projectdir` call along a stable edge is a pure cursor update. -/
theorem projectdirF_noop (f : ℕ) (st : WaveFunction) (t op : ℕ × ℕ) (e : ℕ)
    (ht : t = nbrd st op e) (hok : edgeOK st op e) :
    projectdirF (f + 1) st t op e = some {st with cursor := (t, op)} := by
  subst ht
  unfold edgeOK at hok
  rcases hok with hc | hs
  · rw [projectdirF_succ, projectdirStep_skip st _ op e (by omega)]
    rfl
  · by_cases h1 : (st.grid (nbrd st op e)).card < 2
    · rw [projectdirF_succ, projectdirStep_skip st _ op e h1]
      rfl
    · have hin : st.grid (nbrd st op e) ∩ projection_ss st (st.grid op) e =
          st.grid (nbrd st op e) := Finset.inter_eq_left.mpr hs
      rw [projectdirF_succ, projectdirStep_nochange st _ op e (by omega) (by rw [hin])]
      rfl

/-- A `projectState` call whose four outgoing edges are all stable is a pure
cursor update: the grid, the entropy groups and the row counters are
untouched. -/
theorem projectStateF_stable (f : ℕ) (st : WaveFunction) (p : ℕ × ℕ)
    (hok : ∀ e, e < 4 → edgeOK st p e) :
    projectStateF (f + 2) st p = some {st with cursor := (nbrd st p 3, p)} := by
  have E1 : projectdirF (f + 1) st (nbrd st p 0) p 0 =
      some {st with cursor := (nbrd st p 0, p)} :=
    projectdirF_noop f st _ p 0 rfl (hok 0 (by omega))
  have E2 : projectdirF (f + 1) {st with cursor := (nbrd st p 0, p)} (nbrd st p 1) p 1 =
      some {st with cursor := (nbrd st p 1, p)} :=
    projectdirF_noop f _ _ p 1 rfl (hok 1 (by omega))
  have E3 : projectdirF (f + 1) {st with cursor := (nbrd st p 1, p)} (nbrd st p 2) p 2 =
      some {st with cursor := (nbrd st p 2, p)} :=
    projectdirF_noop f _ _ p 2 rfl (hok 2 (by omega))
  have E4 : projectdirF (f + 1) {st with cursor := (nbrd st p 2, p)} (nbrd st p 3) p 3 =
      some {st with cursor := (nbrd st p 3, p)} :=
    projectdirF_noop f _ _ p 3 rfl (hok 3 (by omega))
  rw [show f + 2 = (f + 1) + 1 from rfl, projectStateF_succ, E1, Option.some_bind,
    E2, Option.some_bind, E3, Option.some_bind, E4]

/-- C5 counterexample: on `ceC5` (3×1 torus, two tiles, horizontally
incompatible with everything, width 1 so every cell is its own horizontal
neighbor), the first `projectState` from `(0,0)` empties `(0,0)` itself but
leaves `(1,0)` fully superposed; the second `projectState` from `(0,0)`
then empties `(1,0)` — the second run changes a cell's candidate set and
its cardinality. -/
theorem c5_counterexample :
    (projectStateF 20 ceC5 (0, 0)).bind (fun s1 =>
      (projectStateF 20 s1 (0, 0)).map (fun s2 =>
        (s1.grid (0, 0), s1.grid (1, 0), s2.grid (1, 0)))) =
      some (∅, {0, 1}, (∅ : Finset ℕ)) := by decide

/-- C5 (amended): propagation is idempotent provided the start cell is not
contradicted when the first run finishes.  If `projectState p` completes
from `st` with result `st1` and `st1`'s candidate set at `p` is nonempty,
then a second `projectState p` (any fuel ≥ 2) completes and changes no
cell's candidate set, no entropy group and no row counter — only the
cursor.  The original unconditional statement is refuted by
`c5_counterexample`. -/
theorem c5_idempotence (f g : ℕ) (st st1 : WaveFunction) (p : ℕ × ℕ)
    (h1 : projectStateF f st p = some st1) (hg : 2 ≤ g)
    (hne : st1.grid p ≠ ∅) :
    ∃ st2, projectStateF g st1 p = some st2 ∧
      st2.grid = st1.grid ∧ st2.groups = st1.groups ∧ st2.rowcount = st1.rowcount := by
  have hC := ((propag_edge f).2 st p st1 h1).2.1
  have hok : ∀ e, e < 4 → edgeOK st1 p e := by
    intro e he
    rcases hC e he with h | h
    · exact h
    · exact absurd h hne
  obtain ⟨k, rfl⟩ : ∃ k, g = k + 2 := ⟨g - 2, by omega⟩
  exact ⟨_, projectStateF_stable k st1 p hok, rfl, rfl, rfl⟩

/-- Witness for C5: on `ceC7` started from `(2,0)` the first run completes
with `(2,0)` still nonempty, and the amended idempotence theorem applies. -/
theorem c5_witness :
    ∃ st2, projectStateF 12 ((projectStateF 20 ceC7 (2, 0)).get (by decide)) (2, 0) =
        some st2 ∧
      st2.grid = ((projectStateF 20 ceC7 (2, 0)).get (by decide)).grid ∧
      st2.groups = ((projectStateF 20 ceC7 (2, 0)).get (by decide)).groups ∧
      st2.rowcount = ((projectStateF 20 ceC7 (2, 0)).get (by decide)).rowcount :=
  c5_idempotence 20 12 ceC7 _ (2, 0) (Option.some_get (by decide)).symm (by omega)
    (by decide)

/-! ## Two-run simulation: resolved rows exert no influence -/

/-- The recycled row `(top + h - 1) % h` differs from the wrapped row above
it, and so does the resolved neighbor row `(recycled + 1) % h`, whenever
`3 ≤ h`. -/
theorem wrap_arith (top h : ℕ) (hh : 3 ≤ h) :
    (top + h - 1) % h ≠ ((top + h - 1) % h + h - 1) % h ∧
    ((top + h - 1) % h + 1) % h ≠ ((top + h - 1) % h + h - 1) % h := by
  have h0 : 0 < h := by omega
  have hr : (top + h - 1) % h < h := Nat.mod_lt _ h0
  obtain ⟨row, hrow⟩ : ∃ row, (top + h - 1) % h = row := ⟨_, rfl⟩
  rw [hrow] at hr ⊢
  have hchar : (row + h - 1) % h = if row = 0 then h - 1 else row - 1 := by
    by_cases h0' : row = 0
    · rw [h0', if_pos rfl]
      simp only [Nat.zero_add]
      exact Nat.mod_eq_of_lt (by omega)
    · rw [if_neg h0']
      have he : row + h - 1 = (row - 1) + h := by omega
      rw [he, Nat.add_mod_right]
      exact Nat.mod_eq_of_lt (by omega)
  have hchar2 : (row + 1) % h = if row + 1 = h then 0 else row + 1 := by
    by_cases hc : row + 1 = h
    · rw [hc, if_pos rfl, Nat.mod_self]
    · rw [if_neg hc]
      exact Nat.mod_eq_of_lt (by omega)
  rw [hchar, hchar2]
  constructor
  · split_ifs with h1 <;> omega
  · split_ifs with h1 h2 <;> omega

/-- The simulation core behind the seam analysis: propagation whose source
cell lies outside row `r` cannot read row `r`'s candidate sets as long as
those stay below the superposition threshold — the two runs succeed or fail
together and stay `simExc r`-related.  Row-`r` cells are skipped as targets
(`sscount < 2`) and, never changing, are never recursed from. -/
theorem propag_sim (r : ℕ) : ∀ f : ℕ,
    (∀ sa sb (t op : ℕ × ℕ) (d : ℕ), simExc r sa sb → op.1 ≠ r →
      (projectdirF f sa t op d = none ∧ projectdirF f sb t op d = none) ∨
      (∃ sa' sb', projectdirF f sa t op d = some sa' ∧
        projectdirF f sb t op d = some sb' ∧ simExc r sa' sb')) ∧
    (∀ sa sb (p : ℕ × ℕ), simExc r sa sb → p.1 ≠ r →
      (projectStateF f sa p = none ∧ projectStateF f sb p = none) ∨
      (∃ sa' sb', projectStateF f sa p = some sa' ∧
        projectStateF f sb p = some sb' ∧ simExc r sa' sb')) := by
  intro f
  induction f with
  | zero =>
    constructor
    · intro sa sb t op d _ _
      exact Or.inl ⟨projectdirF_zero sa t op d, projectdirF_zero sb t op d⟩
    · intro sa sb p _ _
      exact Or.inl ⟨projectStateF_zero sa p, projectStateF_zero sb p⟩
  | succ f ih =>
    constructor
    · intro sa sb t op d hsim hop
      obtain ⟨eh, ew, en, ep, et, goff, gron⟩ := hsim
      have hsimR : simExc r sa sb := ⟨eh, ew, en, ep, et, goff, gron⟩
      by_cases ht1 : t.1 = r
      · right
        refine ⟨{sa with cursor := (t, op)}, {sb with cursor := (t, op)}, ?_, ?_, ?_⟩
        · rw [projectdirF_succ, projectdirStep_skip sa t op d (gron t ht1).1]
          rfl
        · rw [projectdirF_succ, projectdirStep_skip sb t op d (gron t ht1).2]
          rfl
        · exact ⟨eh, ew, en, ep, et, goff, gron⟩
      · have hg : sa.grid t = sb.grid t := goff t ht1
        have hpj : projection_ss sa (sa.grid op) d = projection_ss sb (sb.grid op) d := by
          unfold projection_ss
          rw [goff op hop, ep]
        by_cases h1 : (sa.grid t).card < 2
        · right
          refine ⟨{sa with cursor := (t, op)}, {sb with cursor := (t, op)}, ?_, ?_, ?_⟩
          · rw [projectdirF_succ, projectdirStep_skip sa t op d h1]
            rfl
          · rw [projectdirF_succ, projectdirStep_skip sb t op d (by rw [← hg]; exact h1)]
            rfl
          · exact ⟨eh, ew, en, ep, et, goff, gron⟩
        · have h2 : 2 ≤ (sa.grid t).card := by omega
          have h2b : 2 ≤ (sb.grid t).card := by rw [← hg]; exact h2
          by_cases he : (sa.grid t).card =
              ((sa.grid t) ∩ projection_ss sa (sa.grid op) d).card
          · right
            refine ⟨{sa with cursor := (t, op)}, {sb with cursor := (t, op)}, ?_, ?_, ?_⟩
            · rw [projectdirF_succ, projectdirStep_nochange sa t op d h2 he]
              rfl
            · rw [projectdirF_succ,
                projectdirStep_nochange sb t op d h2b (by rw [← hg, ← hpj]; exact he)]
              rfl
            · exact ⟨eh, ew, en, ep, et, goff, gron⟩
          · have heb : (sb.grid t).card ≠
                ((sb.grid t) ∩ projection_ss sb (sb.grid op) d).card := by
              rw [← hg, ← hpj]
              exact he
            have hIb : (sb.grid t) ∩ projection_ss sb (sb.grid op) d =
                (sa.grid t) ∩ projection_ss sa (sa.grid op) d := by
              rw [← hg, ← hpj]
            rw [projectdirF_succ f sa t op d, projectdirStep_change sa t op d h2 he,
              projectdirF_succ f sb t op d, projectdirStep_change sb t op d h2b heb]
            dsimp only
            rw [hIb]
            have hsim2 : simExc r
                (applyWrite {sa with cursor := (t, op)} t
                  ((sa.grid t) ∩ projection_ss sa (sa.grid op) d))
                (applyWrite {sb with cursor := (t, op)} t
                  ((sa.grid t) ∩ projection_ss sa (sa.grid op) d)) := by
              refine ⟨?_, ?_, ?_, ?_, ?_, ?_, ?_⟩
              · rw [applyWrite_h, applyWrite_h]
                exact eh
              · rw [applyWrite_w, applyWrite_w]
                exact ew
              · rw [applyWrite_numStates, applyWrite_numStates]
                exact en
              · rw [applyWrite_proj, applyWrite_proj]
                exact ep
              · rw [applyWrite_top, applyWrite_top]
                exact et
              · intro q hq
                simp only [applyWrite_grid]
                by_cases hqt : q = t
                · rw [if_pos hqt, if_pos hqt]
                · rw [if_neg hqt, if_neg hqt]
                  exact goff q hq
              · intro q hq
                have hqt : q ≠ t := fun hc => ht1 (by rw [← hc]; exact hq)
                simp only [applyWrite_grid]
                rw [if_neg hqt, if_neg hqt]
                exact gron q hq
            by_cases hzero : ((sa.grid t) ∩ projection_ss sa (sa.grid op) d).card = 0
            · rw [decide_eq_false (not_not_intro hzero)]
              rw [if_neg (show ¬(false = true) from by simp),
                if_neg (show ¬(false = true) from by simp)]
              right
              exact ⟨_, _, rfl, rfl, hsim2⟩
            · rw [decide_eq_true hzero, if_pos rfl, if_pos rfl]
              exact ih.2 _ _ t hsim2 ht1
    · intro sa sb p hsim hp
      have hn : nbrd sb = nbrd sa := nbrd_congr hsim.1.symm hsim.2.1.symm
      rw [projectStateF_succ f sa p, projectStateF_succ f sb p, hn]
      rcases ih.1 sa sb (nbrd sa p 0) p 0 hsim hp with ⟨na, nb⟩ | ⟨s1a, s1b, h1a, h1b, hs1⟩
      · rw [na, nb]
        exact Or.inl ⟨rfl, rfl⟩
      · rw [h1a, h1b]
        simp only [Option.some_bind]
        rcases ih.1 s1a s1b (nbrd sa p 1) p 1 hs1 hp with ⟨na, nb⟩ | ⟨s2a, s2b, h2a, h2b, hs2⟩
        · rw [na, nb]
          exact Or.inl ⟨rfl, rfl⟩
        · rw [h2a, h2b]
          simp only [Option.some_bind]
          rcases ih.1 s2a s2b (nbrd sa p 2) p 2 hs2 hp with ⟨na, nb⟩ | ⟨s3a, s3b, h3a, h3b, hs3⟩
          · rw [na, nb]
            exact Or.inl ⟨rfl, rfl⟩
          · rw [h3a, h3b]
            simp only [Option.some_bind]
            exact ih.1 s3a s3b (nbrd sa p 3) p 3 hs3 hp

/-- The simulation lifted over `resetrow`'s re-propagation loop: the loop's
source cells all sit in the fixed row `(row + 1) % h`, so two
`simExc r`-related start states stay related provided that row is not
row `r`. -/
theorem foldsim (r fuel row : ℕ) : ∀ (l : List ℕ) (sa sb : WaveFunction),
    simExc r sa sb → (row + 1) % sa.h ≠ r →
    ((l.foldlM (fun s x =>
        let row2 := (row + 1) % s.h
        let p : ℕ × ℕ := (row2, x)
        projectdirF fuel s ((p.1 + s.h - 1) % s.h, x) p 0) sa) = none ∧
     (l.foldlM (fun s x =>
        let row2 := (row + 1) % s.h
        let p : ℕ × ℕ := (row2, x)
        projectdirF fuel s ((p.1 + s.h - 1) % s.h, x) p 0) sb) = none) ∨
    (∃ sa' sb',
      (l.foldlM (fun s x =>
        let row2 := (row + 1) % s.h
        let p : ℕ × ℕ := (row2, x)
        projectdirF fuel s ((p.1 + s.h - 1) % s.h, x) p 0) sa) = some sa' ∧
      (l.foldlM (fun s x =>
        let row2 := (row + 1) % s.h
        let p : ℕ × ℕ := (row2, x)
        projectdirF fuel s ((p.1 + s.h - 1) % s.h, x) p 0) sb) = some sb' ∧
      simExc r sa' sb') := by
  intro l
  induction l with
  | nil =>
    intro sa sb hsim _
    right
    exact ⟨sa, sb, rfl, rfl, hsim⟩
  | cons x xs ih =>
    intro sa sb hsim hop
    have eh : sa.h = sb.h := hsim.1
    rw [List.foldlM_cons, List.foldlM_cons]
    rw [show sb.h = sa.h from eh.symm]
    rcases (propag_sim r fuel).1 sa sb (((row + 1) % sa.h + sa.h - 1) % sa.h, x)
        ((row + 1) % sa.h, x) 0 hsim hop with ⟨hna, hnb⟩ | ⟨s1a, s1b, h1a, h1b, hs1⟩
    · rw [hna, hnb]
      exact Or.inl ⟨rfl, rfl⟩
    · rw [h1a, h1b]
      simp only [Option.bind_eq_bind, Option.some_bind]
      obtain ⟨⟨bh, -, -, -, -⟩, -, -⟩ := (propag_basic fuel).1 _ _ _ _ _ h1a
      refine ih s1a s1b hs1 ?_
      rw [show s1a.h = sa.h from bh]
      exact hop

/-- `resetrowPhase1` preserves the `simExc r` relation when the recycled
row is not row `r`: the recycled row is reset to the same full candidate
set on both sides, everything else is untouched. -/
theorem simExc_resetrowPhase1 (r : ℕ) (sa sb : WaveFunction)
    (hsim : simExc r sa sb) (hne : (sa.top + sa.h - 1) % sa.h ≠ r) :
    simExc r (resetrowPhase1 sa) (resetrowPhase1 sb) := by
  obtain ⟨eh, ew, en, ep, et, goff, gron⟩ := hsim
  obtain ⟨ah, aw, an, ap, at', agrid, afull, -⟩ := resetrowPhase1_facts sa
  obtain ⟨bh, bw, bn, bp, bt', bgrid, bfull, -⟩ := resetrowPhase1_facts sb
  have hrowb : (sb.top + sb.h - 1) % sb.h = (sa.top + sa.h - 1) % sa.h := by
    rw [← et, ← eh]
  refine ⟨?_, ?_, ?_, ?_, ?_, ?_, ?_⟩
  · rw [ah, bh]
    exact eh
  · rw [aw, bw]
    exact ew
  · rw [an, bn]
    exact en
  · rw [ap, bp]
    exact ep
  · rw [at', bt', hrowb]
  · intro q hq
    by_cases hq1 : q.1 = (sa.top + sa.h - 1) % sa.h
    · by_cases hq2 : q.2 < sa.w
      · have hqa : q = ((sa.top + sa.h - 1) % sa.h, q.2) := by
          rw [Prod.ext_iff]
          exact ⟨hq1, rfl⟩
        rw [hqa, afull q.2 hq2, ← hrowb, bfull q.2 (by rw [← ew]; exact hq2), en]
      · rw [agrid q (fun _ h2 => hq2 h2),
          bgrid q (fun _ h2 => hq2 (by rw [ew]; exact h2)), goff q hq]
    · rw [agrid q (fun h1 => absurd h1 hq1),
        bgrid q (fun h1 => absurd (h1.trans hrowb) hq1), goff q hq]
  · intro q hq
    have hq1 : q.1 ≠ (sa.top + sa.h - 1) % sa.h := by
      rw [hq]
      exact Ne.symm hne
    rw [agrid q (fun h1 => absurd h1 hq1),
      bgrid q (fun h1 => absurd (h1.trans hrowb) hq1)]
    exact gron q hq

/-- C7 counterexample: the seam-suppression test of `projectdir` is
commented out in the source, so propagation crosses the logical top seam
freely.  In `ceC7` (`top = 0`, so row 2 is the row the torus places above
the top row), propagation sourced at the wrapped-row cell `(2,0)` flows
through the seam and shrinks the top-row cell `(0,0)` from `{0,1}` to
`{0}`. -/
theorem c7_counterexample :
    ceC7.top = 0 ∧ ceC7.grid (0, 0) = {0, 1} ∧
    (projectStateF 20 ceC7 (2, 0)).map (fun s => s.grid (0, 0)) = some {0} := by
  decide

/-- C7 (amended): nothing in the code suppresses propagation across the
`top` seam (`c7_counterexample` exhibits a crossing); what holds instead is
an insensitivity property.  The row the recycled row sees through the
vertical wrap holds only collapsed or contradicted cells in a scrolling
run, and `resetrow`'s outcome does not depend on that row's contents: for
two pre-`resetrow` states that differ only in the wrapped row
(`wrapRow`, its cells below the superposition threshold on both sides) and
a grid of height at least 3, the two `resetrow` runs succeed or fail
together, agree on every row other than the wrapped row, and leave the
wrapped row's candidate sets exactly as they were. -/
theorem c7_wrapped_row_independence (fuel : ℕ) (sa sb : WaveFunction)
    (hh3 : 3 ≤ sa.h) (hsim : simExc (wrapRow sa) sa sb) :
    (resetrowF fuel sa = none ∧ resetrowF fuel sb = none) ∨
    (∃ sa' sb', resetrowF fuel sa = some sa' ∧ resetrowF fuel sb = some sb' ∧
      (∀ q : ℕ × ℕ, q.1 ≠ wrapRow sa → sa'.grid q = sb'.grid q) ∧
      (∀ q : ℕ × ℕ, q.1 = wrapRow sa →
        sa'.grid q = sa.grid q ∧ sb'.grid q = sb.grid q)) := by
  obtain ⟨hne_row, hne_row2⟩ := wrap_arith sa.top sa.h hh3
  have hsim1 := simExc_resetrowPhase1 (wrapRow sa) sa sb hsim hne_row
  obtain ⟨ah, aw, an, ap, at', agrid, afull, -⟩ := resetrowPhase1_facts sa
  obtain ⟨bh, bw, bn, bp, bt', bgrid, bfull, -⟩ := resetrowPhase1_facts sb
  obtain ⟨eh, ew, en, ep, et, goff, gron⟩ := hsim
  have hrowb : (sb.top + sb.h - 1) % sb.h = (sa.top + sa.h - 1) % sa.h := by
    rw [← et, ← eh]
  have hres_b : resetrowF fuel sb = ((List.range (resetrowPhase1 sb).w).foldlM
      (fun s x =>
        let row2 := ((resetrowPhase1 sb).top + 1) % s.h
        let p : ℕ × ℕ := (row2, x)
        projectdirF fuel s ((p.1 + s.h - 1) % s.h, x) p 0) (resetrowPhase1 sb)) := rfl
  have hres_a : resetrowF fuel sa = ((List.range (resetrowPhase1 sa).w).foldlM
      (fun s x =>
        let row2 := ((resetrowPhase1 sa).top + 1) % s.h
        let p : ℕ × ℕ := (row2, x)
        projectdirF fuel s ((p.1 + s.h - 1) % s.h, x) p 0) (resetrowPhase1 sa)) := rfl
  have hwB : (resetrowPhase1 sb).w = (resetrowPhase1 sa).w := by
    rw [aw, bw, ew]
  have htB : (resetrowPhase1 sb).top = (resetrowPhase1 sa).top := by
    rw [at', bt', ← et, ← eh]
  rw [hres_a, hres_b, hwB, htB]
  have hop : ((resetrowPhase1 sa).top + 1) % (resetrowPhase1 sa).h ≠ wrapRow sa := by
    rw [at', ah]
    exact hne_row2
  rcases foldsim (wrapRow sa) fuel ((resetrowPhase1 sa).top)
      (List.range (resetrowPhase1 sa).w) (resetrowPhase1 sa) (resetrowPhase1 sb)
      hsim1 hop with ⟨hna, hnb⟩ | ⟨sa', sb', hfa, hfb, hfs⟩
  · exact Or.inl ⟨hna, hnb⟩
  · right
    refine ⟨sa', sb', hfa, hfb, hfs.2.2.2.2.2.1, ?_⟩
    intro q hq
    have hba : basicConcl (resetrowPhase1 sa) sa' :=
      foldproj_basic fuel _ _ _ _ hfa
    have hbb : basicConcl (resetrowPhase1 sb) sb' :=
      foldproj_basic fuel _ _ _ _ hfb
    have hq1 : q.1 ≠ (sa.top + sa.h - 1) % sa.h := by
      rw [hq]
      exact Ne.symm hne_row
    have hga : (resetrowPhase1 sa).grid q = sa.grid q :=
      agrid q (fun h1 => absurd h1 hq1)
    have hgb : (resetrowPhase1 sb).grid q = sb.grid q :=
      bgrid q (fun h1 => absurd (h1.trans hrowb) hq1)
    constructor
    · exact (hba.2.2 q (by rw [hga]; exact (gron q hq).1)).trans hga
    · exact (hbb.2.2 q (by rw [hgb]; exact (gron q hq).2)).trans hgb

/-- Witness for C7: the fully resolved `wsC7` and its variant `wsC7b`
(different resolved tile in the wrapped row 1) satisfy the hypotheses, so
their `resetrow` runs agree off row 1 and leave row 1 untouched. -/
theorem c7_witness :
    (resetrowF 40 wsC7 = none ∧ resetrowF 40 wsC7b = none) ∨
    (∃ sa' sb', resetrowF 40 wsC7 = some sa' ∧ resetrowF 40 wsC7b = some sb' ∧
      (∀ q : ℕ × ℕ, q.1 ≠ wrapRow wsC7 → sa'.grid q = sb'.grid q) ∧
      (∀ q : ℕ × ℕ, q.1 = wrapRow wsC7 →
        sa'.grid q = wsC7.grid q ∧ sb'.grid q = wsC7b.grid q)) := by
  refine c7_wrapped_row_independence 40 wsC7 wsC7b (by decide) ?_
  refine ⟨rfl, rfl, rfl, rfl, rfl, ?_, ?_⟩
  · intro q hq
    have hq' : q.1 ≠ 1 := hq
    have h1 : q ≠ ((1 : ℕ), (0 : ℕ)) := fun hc => hq' (by rw [hc])
    show (if q = (0, 0) ∨ q = (1, 0) ∨ q = (2, 0) then ({0} : Finset ℕ) else ∅) =
      (if q = (0, 0) ∨ q = (2, 0) then ({0} : Finset ℕ) else
        if q = (1, 0) then {1} else ∅)
    by_cases hA : q = ((0 : ℕ), (0 : ℕ))
    · rw [if_pos (Or.inl hA), if_pos (Or.inl hA)]
    · by_cases hC : q = ((2 : ℕ), (0 : ℕ))
      · rw [if_pos (Or.inr (Or.inr hC)), if_pos (Or.inr hC)]
      · rw [if_neg (fun hor => hor.elim hA (fun hor2 => hor2.elim h1 hC)),
          if_neg (fun hor => hor.elim hA hC), if_neg h1]
  · intro q hq
    have hga : wsC7.grid q =
        if q = (0, 0) ∨ q = (1, 0) ∨ q = (2, 0) then ({0} : Finset ℕ) else ∅ := rfl
    have hgb : wsC7b.grid q =
        if q = (0, 0) ∨ q = (2, 0) then ({0} : Finset ℕ) else
          if q = (1, 0) then {1} else ∅ := rfl
    constructor
    · rw [hga]
      split_ifs <;> decide
    · rw [hgb]
      split_ifs <;> decide
